import Mathlib

/-!
Verification of the `gnomod` manifest lexer/parser/editor (`read.go`,
ported from `golang.org/x/mod/modfile`) and the `mod why` helpers.

The Go code is shallowly embedded: the input byte stream is modelled as a
`List Char` (positions count runes, which is order-isomorphic to Go's byte
offsets and exact for ASCII input), panics raised by `input.Error` are
modelled with `Except`, and pointer identity of syntax nodes is modelled
with numeric ids.  The types `modfile.Position`, `modfile.Comment`,
`modfile.FileSyntax`, … come from the external dependency
`golang.org/x/mod/modfile`; their fields and the few methods used here
(`Span`, `Comment`) are reproduced from that package.
-/

namespace Gnomod

/-- `modfile.Position`: line (1-based), rune in line (1-based), byte offset
(modelled as rune offset). -/
structure Pos where
  line : Nat
  lineRune : Nat
  off : Nat
deriving DecidableEq, Repr

/-- `modfile.Comment`: a single comment with its start position; `suffix`
records whether non-whitespace text preceded it on its line. -/
structure GComment where
  start : Pos
  text : String
  suffix : Bool
deriving DecidableEq, Repr

/-- `modfile.Comments`: comments before, beside (suffix) and after a node. -/
structure GComments where
  before : List GComment
  suffix : List GComment
  after : List GComment
deriving DecidableEq, Repr

def GComments.empty : GComments := ⟨[], [], []⟩

/-- A parse/lex error: `modfile.Error` restricted to the fields the embedded
code sets (filename, position, message). -/
structure GErr where
  filename : String
  pos : Pos
  msg : String
deriving DecidableEq, Repr

/-- Token kinds: the named kinds `_EOF`, `_EOLCOMMENT`, `_IDENT`, `_STRING`,
`_COMMENT`, plus punctuation tokens carried as their character. -/
inductive TokKind where
  | eof
  | eolcomment
  | ident
  | str
  | comment
  | punct (c : Char)
deriving DecidableEq, Repr

/-- `tokenKind.isComment`. -/
def TokKind.isComment : TokKind → Bool
  | .comment => true
  | .eolcomment => true
  | _ => false

/-- `tokenKind.isEOL`: a token that terminates a line. -/
def TokKind.isEOL : TokKind → Bool
  | .eof => true
  | .eolcomment => true
  | .punct c => c = '\n'
  | _ => false

/-- A lexed token (`token` in read.go). -/
structure Tok where
  kind : TokKind
  pos : Pos
  endPos : Pos
  text : String
deriving DecidableEq, Repr

/-- Go `unicode.IsSpace`, restricted to the code points it recognizes in
the Latin-1 range (all inputs of interest are ASCII). -/
def isGoSpace (c : Char) : Bool :=
  c = ' ' ∨ c = '\t' ∨ c = '\n' ∨ c.toNat = 0x0B ∨ c.toNat = 0x0C ∨ c = '\r' ∨
    c.toNat = 0x85 ∨ c.toNat = 0xA0

/-- Go `unicode.IsPrint`, modelled exactly on the ASCII range (printable
ASCII) and as "printable" for code points from U+00A1 up; control
characters and the Latin-1 gap are not printable. -/
def unicodeIsPrint (c : Char) : Bool :=
  (0x20 ≤ c.toNat ∧ c.toNat ≤ 0x7E) ∨ 0xA1 ≤ c.toNat

/-- `isIdent`: identifier runes are printable non-space runes other than
the reserved punctuation. -/
def isIdentChar (c : Char) : Bool :=
  match c with
  | ' ' | '(' | ')' | '[' | ']' | '{' | '}' | ',' => false
  | _ => ¬ isGoSpace c ∧ unicodeIsPrint c

/-- Position advance of `readRune`. -/
def advancePos (p : Pos) (c : Char) : Pos :=
  if c = '\n' then { line := p.line + 1, lineRune := 1, off := p.off + 1 }
  else { p with lineRune := p.lineRune + 1, off := p.off + 1 }

/-- The suffix test of `readToken`: does any non-whitespace text precede
offset `off` on its line?  (`bytes.LastIndex` for `\n` followed by
`bytes.TrimSpace` on the segment.) -/
def lineHasTextBefore (complete : List Char) (off : Nat) : Bool :=
  ((complete.take off).reverse.takeWhile (· ≠ '\n')).any (fun c => ¬ isGoSpace c)

/-- Consume a `//` comment body up to and including the newline; returns
(consumed chars, rest, position after). -/
def scanComment : List Char → Pos → (List Char × List Char × Pos)
  | [], pos => ([], [], pos)
  | c :: cs, pos =>
    if c = '\n' then ([c], cs, advancePos pos c)
    else
      let r := scanComment cs (advancePos pos c)
      (c :: r.1, r.2.1, r.2.2)

/-- `endToken` for comment kinds: remove one trailing LF or CRLF. -/
def trimCommentText (s : List Char) : List Char :=
  if s.reverse.take 2 = ['\n', '\r'] then s.dropLast.dropLast
  else if s.reverse.take 1 = ['\n'] then s.dropLast
  else s

/-- Consume a quoted string after its opening quote.  Mirrors the string
loop of `readToken`: EOF resets the position to the token start before
erroring; a (peeked) newline is an error; a backslash escape consumes the
next rune unconditionally unless the quote is a backquote. -/
def scanString (filename : String) (quote : Char) (start : Pos) :
    List Char → Pos → Except GErr (List Char × List Char × Pos)
  | [], _ => .error ⟨filename, start, "unexpected EOF in string"⟩
  | c :: cs, pos =>
    if c = '\n' then .error ⟨filename, pos, "unexpected newline in string"⟩
    else
      let pos' := advancePos pos c
      if c = quote then .ok ([c], cs, pos')
      else if c = '\\' ∧ quote ≠ '`' then
        match cs with
        | [] => .error ⟨filename, start, "unexpected EOF in string"⟩
        | d :: ds =>
          (scanString filename quote start ds (advancePos pos' d)).map
            (fun r => (c :: d :: r.1, r.2.1, r.2.2))
      else
        (scanString filename quote start cs pos').map
          (fun r => (c :: r.1, r.2.1, r.2.2))

/-- Consume an identifier token (the `isIdent` scan loop of `readToken`). -/
def scanIdent (filename : String) :
    List Char → Pos → Except GErr (List Char × List Char × Pos)
  | [], pos => .ok ([], [], pos)
  | c :: cs, pos =>
    if ¬ isIdentChar c then .ok ([], c :: cs, pos)
    else if c = '/' ∧ cs.head? = some '/' then .ok ([], c :: cs, pos)
    else if c = '/' ∧ cs.head? = some '*' then
      .error ⟨filename, pos, "mod files must use // comments (not /* */ comments)"⟩
    else
      (scanIdent filename cs (advancePos pos c)).map
        (fun r => (c :: r.1, r.2.1, r.2.2))

/-- `readToken`: skip spaces and handle comments, then lex one token.
Returns the token, the rest of the input, the new position, and the suffix
comments recorded into `in.comments` (zero or one). -/
def readToken (filename : String) (complete : List Char) :
    List Char → Pos → Except GErr (Tok × List Char × Pos × List GComment)
  | [], pos => .ok (⟨.eof, pos, pos, ""⟩, [], pos, [])
  | c :: cs, pos =>
    if c = ' ' ∨ c = '\t' ∨ c = '\r' then
      readToken filename complete cs (advancePos pos c)
    else if c = '/' ∧ cs.head? = some '/' then
      -- comment runs to end of line; decide standalone vs suffix first
      let sfx := lineHasTextBefore complete pos.off
      let pos1 := advancePos (advancePos pos c) '/'
      let r := scanComment (cs.drop 1) pos1
      let text : String := ⟨trimCommentText ('/' :: '/' :: r.1)⟩
      if ¬ sfx then
        .ok (⟨.comment, pos, r.2.2, text⟩, r.2.1, r.2.2, [])
      else
        .ok (⟨.eolcomment, pos, r.2.2, text⟩, r.2.1, r.2.2,
          [⟨pos, text, true⟩])
    else if c = '/' ∧ cs.head? = some '*' then
      .error ⟨filename, pos, "mod files must use // comments (not /* */ comments)"⟩
    else if c = '\n' ∨ c = '(' ∨ c = ')' ∨ c = '[' ∨ c = ']' ∨ c = '{' ∨
        c = '}' ∨ c = ',' then
      .ok (⟨.punct c, pos, advancePos pos c, ⟨[c]⟩⟩, cs, advancePos pos c, [])
    else if c = '"' ∨ c = '`' then
      (scanString filename c pos cs (advancePos pos c)).map
        (fun r => (⟨.str, pos, r.2.2, ⟨c :: r.1⟩⟩, r.2.1, r.2.2, []))
    else if ¬ isIdentChar c then
      .error ⟨filename, pos, s!"unexpected input character {c}"⟩
    else
      (scanIdent filename (c :: cs) pos).map
        (fun r => (⟨.ident, pos, r.2.2, ⟨r.1⟩⟩, r.2.1, r.2.2, []))

theorem scanComment_length (cs : List Char) (pos : Pos) :
    (scanComment cs pos).2.1.length ≤ cs.length := by
  induction cs generalizing pos with
  | nil => simp [scanComment]
  | cons c cs ih =>
    simp only [scanComment]
    split
    · simp
    · exact le_trans (ih _) (Nat.le_succ _)

theorem scanString_length (filename : String) (quote : Char) (start : Pos)
    (cs : List Char) (pos : Pos) (r) :
    scanString filename quote start cs pos = .ok r →
    r.2.1.length ≤ cs.length := by
  induction cs, pos using scanString.induct filename quote start generalizing r with
  | case1 pos => simp [scanString]
  | case2 cs pos => simp [scanString]
  | case3 cs pos hq =>
    simp only [scanString, if_neg hq, if_pos rfl]
    intro h
    cases h
    simp
  | case4 c pos h1 h2 h3 =>
    simp [scanString, if_neg h1, if_neg h2, if_pos h3]
  | case5 c pos h1 pos' h3 h4 d ds ih =>
    simp only [scanString, if_neg h1, if_neg h3, if_pos h4, Except.map]
    split
    · intro h
      cases h
    · rename_i r' heq
      intro h
      cases h
      have := ih _ heq
      simp at this ⊢
      omega
  | case6 c cs pos h1 pos' h3 h4 ih =>
    simp only [scanString, if_neg h1, if_neg h3, if_neg h4, Except.map]
    split
    · intro h
      cases h
    · rename_i r' heq
      intro h
      cases h
      have := ih _ heq
      simp at this ⊢
      omega

theorem scanIdent_length (filename : String) (cs : List Char) (pos : Pos) (r) :
    scanIdent filename cs pos = .ok r →
    r.2.1.length ≤ cs.length := by
  induction cs generalizing pos r with
  | nil =>
    intro h
    simp only [scanIdent] at h
    cases h
    simp
  | cons c cs ih =>
    intro h
    simp only [scanIdent] at h
    split at h
    · cases h
      simp
    · split at h
      · cases h
        simp
      · split at h
        · simp at h
        · cases heq : scanIdent filename cs (advancePos pos c) with
          | error e =>
            rw [heq] at h
            simp [Except.map] at h
          | ok v =>
            rw [heq] at h
            simp only [Except.map] at h
            cases h
            have := ih _ _ heq
            simp
            omega

theorem scanIdent_cons_length (filename : String) (c : Char) (cs : List Char)
    (pos : Pos) (r) (hc : isIdentChar c)
    (h2 : ¬ (c = '/' ∧ cs.head? = some '/')) :
    scanIdent filename (c :: cs) pos = .ok r → r.2.1.length ≤ cs.length := by
  intro h
  simp only [scanIdent] at h
  rw [if_neg (show ¬ (¬ isIdentChar c = true) by simp [hc]), if_neg h2] at h
  split at h
  · simp at h
  · cases heq : scanIdent filename cs (advancePos pos c) with
    | error e =>
      rw [heq] at h
      simp [Except.map] at h
    | ok v =>
      rw [heq] at h
      simp only [Except.map] at h
      cases h
      have := scanIdent_length _ _ _ _ heq
      simpa using this

theorem readToken_length (filename : String) (complete cs : List Char)
    (pos : Pos) (r) :
    readToken filename complete cs pos = .ok r →
    r.1.kind ≠ .eof → r.2.1.length < cs.length := by
  induction cs, pos using readToken.induct filename complete generalizing r with
  | case1 pos =>
    intro h
    simp [readToken] at h
    intro hk
    exact absurd (by simp [← h]) hk
  | case2 c cs pos h1 ih =>
    simp only [readToken, if_pos h1]
    intro h hk
    exact Nat.lt_succ_of_lt (ih _ h hk)
  | case3 c cs pos h1 h2 sfx h3 =>
    simp only [readToken, if_neg h1, if_pos h2]
    split <;>
    · intro h hk
      cases h
      simp only
      have ha := scanComment_length (cs.drop 1)
        (advancePos (advancePos pos c) '/')
      have hb : (cs.drop 1).length ≤ cs.length := by simp
      simp only [List.length_cons]
      omega
  | case4 c cs pos h1 h2 sfx h3 =>
    simp only [readToken, if_neg h1, if_pos h2]
    split <;>
    · intro h hk
      cases h
      simp only
      have ha := scanComment_length (cs.drop 1)
        (advancePos (advancePos pos c) '/')
      have hb : (cs.drop 1).length ≤ cs.length := by simp
      simp only [List.length_cons]
      omega
  | case5 c cs pos h1 h2 h3 =>
    simp [readToken, if_neg h1, if_neg h2, if_pos h3]
  | case6 c cs pos h1 h2 h3 h4 =>
    simp only [readToken, if_neg h1, if_neg h2, if_neg h3, if_pos h4]
    intro h hk
    cases h
    simp
  | case7 c cs pos h1 h2 h3 h4 h5 =>
    intro h hk
    simp only [readToken, if_neg h1, if_neg h2, if_neg h3, if_neg h4,
      if_pos h5] at h
    cases heq : scanString filename c pos cs (advancePos pos c) with
    | error e =>
      rw [heq] at h
      simp [Except.map] at h
    | ok v =>
      rw [heq] at h
      simp only [Except.map] at h
      cases h
      have := scanString_length _ _ _ _ _ _ heq
      simp only [List.length_cons]
      omega
  | case8 c cs pos h1 h2 h3 h4 h5 h6 =>
    intro h
    simp only [readToken, if_neg h1, if_neg h2, if_neg h3, if_neg h4,
      if_neg h5, if_pos h6] at h
    simp at h
  | case9 c cs pos h1 h2 h3 h4 h5 h6 =>
    intro h hk
    simp only [readToken, if_neg h1, if_neg h2, if_neg h3, if_neg h4,
      if_neg h5, if_neg h6] at h
    cases heq : scanIdent filename (c :: cs) pos with
    | error e =>
      rw [heq] at h
      simp [Except.map] at h
    | ok v =>
      rw [heq] at h
      simp only [Except.map] at h
      cases h
      have := scanIdent_cons_length _ _ _ _ _ (by simpa using h6) h2 heq
      simp only [List.length_cons]
      omega

/-- The full lexing loop: repeatedly `readToken` until an EOF token is
produced, collecting the token stream and the suffix comments recorded in
`in.comments`.  (In Go the lexer is pulled one token ahead of the parser;
since lexing does not depend on the parser this eager version produces the
same stream.) -/
def tokenizeLoop (filename : String) (complete : List Char)
    (cs : List Char) (pos : Pos) : Except GErr (List Tok × List GComment) :=
  match h : readToken filename complete cs pos with
  | .error e => .error e
  | .ok (tok, rest, pos', cms) =>
    if hk : tok.kind = .eof then .ok ([tok], cms)
    else
      match tokenizeLoop filename complete rest pos' with
      | .error e => .error e
      | .ok (ts, cms') => .ok (tok :: ts, cms ++ cms')
termination_by cs.length
decreasing_by exact readToken_length filename complete cs pos _ h hk

/-- Lex a whole document from position 1:1:0 (`newInput`). -/
def tokenize (filename : String) (data : List Char) :
    Except GErr (List Tok × List GComment) :=
  tokenizeLoop filename data data ⟨1, 1, 0⟩

/-- `modfile.Line`: a single line of tokens.  The `id` field models Go
pointer identity (used only by the editor); the parser gives every line
id 0. -/
structure GLine where
  comments : GComments
  start : Pos
  token : List String
  inBlock : Bool
  endPos : Pos
  id : Nat
deriving DecidableEq, Repr

/-- `modfile.LParen`. -/
structure GLParen where
  comments : GComments
  pos : Pos
deriving DecidableEq, Repr

/-- `modfile.RParen`. -/
structure GRParen where
  comments : GComments
  pos : Pos
deriving DecidableEq, Repr

/-- `modfile.LineBlock`: `token '(' line... ')'`.  `id` models pointer
identity for the editor. -/
structure GLineBlock where
  comments : GComments
  start : Pos
  lparen : GLParen
  token : List String
  line : List GLine
  rparen : GRParen
  id : Nat
deriving DecidableEq, Repr

/-- `modfile.CommentBlock`: a free-standing block of comments. -/
structure GCommentBlock where
  comments : GComments
  start : Pos
deriving DecidableEq, Repr

/-- A top-level statement of `modfile.FileSyntax.Stmt` (the `Expr` variants
that occur there). -/
inductive GStmt where
  | line (l : GLine)
  | block (b : GLineBlock)
  | comments (cb : GCommentBlock)
deriving DecidableEq, Repr

/-- `modfile.FileSyntax`. -/
structure GFileSyntax where
  name : String
  comments : GComments
  stmt : List GStmt
deriving DecidableEq, Repr

/-- `in.peek()` on the remaining token stream (the Go lexer yields EOF
tokens forever once the input is exhausted). -/
def peekKind : List Tok → TokKind
  | [] => .eof
  | t :: _ => t.kind

/-- `in.lex()`: pop the next token (EOF forever at the end). -/
def lexT : List Tok → Tok × List Tok
  | [] => (⟨.eof, ⟨0, 0, 0⟩, ⟨0, 0, 0⟩, ""⟩, [])
  | t :: ts => (t, ts)

/-- The loop of `parseLine`: accumulate tokens until an EOL token. -/
def parseLineLoop (start endP : Pos) (tokens : List String) :
    List Tok → (GLine × List Tok)
  | [] => (⟨GComments.empty, start, tokens, true, endP, 0⟩, [])
  | t :: ts =>
    if t.kind.isEOL then (⟨GComments.empty, start, tokens, true, endP, 0⟩, ts)
    else parseLineLoop start t.endPos (tokens ++ [t.text]) ts

/-- `input.parseLine`. -/
def parseLine (filename : String) (ts : List Tok) :
    Except GErr (GLine × List Tok) :=
  let (t, ts') := lexT ts
  if t.kind.isEOL then
    .error ⟨filename, t.pos, "internal parse error: parseLine at end of line"⟩
  else .ok (parseLineLoop t.pos t.endPos [t.text] ts')

theorem parseLineLoop_length (start endP : Pos) (tokens : List String)
    (ts : List Tok) : (parseLineLoop start endP tokens ts).2.length ≤ ts.length := by
  induction ts generalizing start endP tokens with
  | nil => simp [parseLineLoop]
  | cons t ts ih =>
    simp only [parseLineLoop]
    split
    · simp
    · exact le_trans (ih _ _ _) (Nat.le_succ _)

theorem parseLine_length (filename : String) (t : Tok) (ts : List Tok) (r) :
    parseLine filename (t :: ts) = .ok r → r.2.length ≤ ts.length := by
  simp only [parseLine, lexT]
  split
  · rintro ⟨⟩
  · intro h
    cases h
    exact parseLineLoop_length _ _ _ _

/-- The loop of `input.parseLineBlock`: collect the block's lines, turning
blank lines into empty placeholder comments (at most one per run, and none
before the first element). -/
def parseLineBlockLoop (filename : String) (start : Pos)
    (token : List String) (lparenPos : Pos) (lines : List GLine)
    (comments : List GComment) (ts : List Tok) :
    Except GErr (GLineBlock × List Tok) :=
  match ts with
  | [] =>
    .error ⟨filename, ⟨0, 0, 0⟩,
      s!"syntax error (unterminated block started at {filename}:{start.line}:{start.lineRune})"⟩
  | t :: ts =>
    if t.kind = .eolcomment then
      -- suffix comment, attached later by assignComments
      parseLineBlockLoop filename start token lparenPos lines comments ts
    else if t.kind = .punct '\n' then
      -- blank line: add an empty comment to preserve it
      let addBlank : Bool :=
        match comments.getLast? with
        | none => ¬ lines.isEmpty
        | some c => c.text ≠ ""
      let comments' := if addBlank then comments ++ [⟨⟨0, 0, 0⟩, "", false⟩] else comments
      parseLineBlockLoop filename start token lparenPos lines comments' ts
    else if t.kind = .comment then
      parseLineBlockLoop filename start token lparenPos lines
        (comments ++ [⟨t.pos, t.text, false⟩]) ts
    else if t.kind = .eof then
      .error ⟨filename, t.pos,
        s!"syntax error (unterminated block started at {filename}:{start.line}:{start.lineRune})"⟩
    else if t.kind = .punct ')' then
      if (peekKind ts).isEOL then
        .ok (⟨GComments.empty, start, ⟨GComments.empty, lparenPos⟩, token,
          lines, ⟨{ GComments.empty with before := comments }, t.pos⟩, 0⟩,
          (lexT ts).2)
      else
        .error ⟨filename, t.pos, "syntax error (expected newline after closing paren)"⟩
    else
      match h : parseLine filename (t :: ts) with
      | .error e => .error e
      | .ok (l, rest) =>
        parseLineBlockLoop filename start token lparenPos
          (lines ++ [{ l with comments := { l.comments with before := comments } }])
          [] rest
termination_by ts.length
decreasing_by
  all_goals simp
  all_goals try omega
  · exact Nat.lt_succ_of_le (parseLine_length filename _ _ _ h)

theorem lexT_length (ts : List Tok) : (lexT ts).2.length ≤ ts.length := by
  cases ts <;> simp [lexT]

theorem parseLineBlockLoop_length (filename : String) (start : Pos)
    (token : List String) (lparenPos : Pos) (lines : List GLine)
    (comments : List GComment) (ts : List Tok) (r) :
    parseLineBlockLoop filename start token lparenPos lines comments ts = .ok r →
    r.2.length ≤ ts.length := by
  induction lines, comments, ts
    using parseLineBlockLoop.induct filename start token lparenPos
    generalizing r with
  | case1 lines comments =>
    simp [parseLineBlockLoop]
  | case2 lines comments t tail h1 ih =>
    simp only [parseLineBlockLoop, if_pos h1]
    intro h
    exact le_trans (ih _ h) (Nat.le_succ _)
  | case3 lines comments t tail h1 h2 addBlank comments2 ih =>
    simp only [parseLineBlockLoop, if_neg h1, if_pos h2]
    intro h
    exact le_trans (ih _ h) (Nat.le_succ _)
  | case4 lines comments t tail h1 h2 h3 ih =>
    simp only [parseLineBlockLoop, if_neg h1, if_neg h2, if_pos h3]
    intro h
    exact le_trans (ih _ h) (Nat.le_succ _)
  | case5 lines comments t tail h1 h2 h3 h4 =>
    simp only [parseLineBlockLoop, if_neg h1, if_neg h2, if_neg h3, if_pos h4]
    rintro ⟨⟩
  | case6 lines comments t tail h1 h2 h3 h4 h5 h6 =>
    simp only [parseLineBlockLoop, if_neg h1, if_neg h2, if_neg h3, if_neg h4,
      if_pos h5, if_pos h6]
    intro h
    cases h
    exact le_trans (lexT_length _) (Nat.le_succ _)
  | case7 lines comments t tail h1 h2 h3 h4 h5 h6 =>
    simp only [parseLineBlockLoop, if_neg h1, if_neg h2, if_neg h3, if_neg h4,
      if_pos h5, if_neg h6]
    rintro ⟨⟩
  | case8 lines comments t tail h1 h2 h3 h4 h5 e heq =>
    intro h
    simp only [parseLineBlockLoop, if_neg h1, if_neg h2, if_neg h3, if_neg h4,
      if_neg h5] at h
    split at h
    · exact Except.noConfusion h
    · rename_i l2 rest2 heq2
      rw [heq] at heq2
      exact Except.noConfusion heq2
  | case9 lines comments t tail h1 h2 h3 h4 h5 l rest heq ih =>
    intro h
    simp only [parseLineBlockLoop, if_neg h1, if_neg h2, if_neg h3, if_neg h4,
      if_neg h5] at h
    split at h
    · exact Except.noConfusion h
    · rename_i l2 rest2 heq2
      rw [heq] at heq2
      injection heq2 with heq3
      cases heq3
      have ha := ih r (by exact h)
      have hb : rest.length ≤ tail.length := parseLine_length filename _ _ _ heq
      simp only [List.length_cons]
      omega

/-- The loop of `input.parseStmt`: accumulate tokens of one statement,
recognizing the start of a `LineBlock` (a `(` with nothing else before end
of line), the empty block `( )` at end of line, and the literal `( )` or
`(` in the middle of a line. -/
def parseStmtLoop (filename : String) (start endP : Pos)
    (tokens : List String) : List Tok → Except GErr (GStmt × List Tok)
  | [] => .ok (.line ⟨GComments.empty, start, tokens, false, endP, 0⟩, [])
  | t :: ts =>
    if t.kind.isEOL then
      .ok (.line ⟨GComments.empty, start, tokens, false, endP, 0⟩, ts)
    else if t.kind = .punct '(' then
      match ts with
      | [] =>
        -- peek is EOF, an EOL kind: start of block (which will then fail)
        (parseLineBlockLoop filename start tokens t.pos [] [] []).map
          (fun r => (.block r.1, r.2))
      | nx :: ts2 =>
        if nx.kind.isEOL then
          -- start of block: no more tokens on this line
          (parseLineBlockLoop filename start tokens t.pos [] [] (nx :: ts2)).map
            (fun r => (.block r.1, r.2))
        else if nx.kind = .punct ')' then
          if (peekKind ts2).isEOL then
            -- empty block
            .ok (.block ⟨GComments.empty, start, ⟨GComments.empty, t.pos⟩,
              tokens, [], ⟨GComments.empty, nx.pos⟩, 0⟩, (lexT ts2).2)
          else
            -- '( )' in the middle of the line, not a block
            parseStmtLoop filename start endP (tokens ++ [t.text, nx.text]) ts2
        else
          -- '(' in the middle of the line, not a block
          parseStmtLoop filename start endP (tokens ++ [t.text]) (nx :: ts2)
    else
      parseStmtLoop filename start t.endPos (tokens ++ [t.text]) ts

/-- `input.parseStmt`. -/
def parseStmt (filename : String) (ts : List Tok) :
    Except GErr (GStmt × List Tok) :=
  let (t, ts') := lexT ts
  parseStmtLoop filename t.pos t.endPos [t.text] ts'

theorem parseStmtLoop_length (filename : String) (start : Pos) (endP : Pos)
    (tokens : List String) (ts : List Tok) (r) :
    parseStmtLoop filename start endP tokens ts = .ok r →
    r.2.length ≤ ts.length := by
  induction endP, tokens, ts using parseStmtLoop.induct filename start
    generalizing r with
  | case1 endP tokens =>
    intro h
    simp only [parseStmtLoop] at h
    cases h
    simp
  | case2 endP tokens t tail hEol =>
    intro h
    cases tail <;>
    · simp only [parseStmtLoop, if_pos hEol] at h
      cases h
      simp
  | case3 endP tokens t h1 h2 =>
    intro h
    simp only [parseStmtLoop, if_neg h1, if_pos h2] at h
    cases heq : parseLineBlockLoop filename start tokens t.pos [] [] [] with
    | error e =>
      rw [heq] at h
      simp [Except.map] at h
    | ok v =>
      rw [heq] at h
      simp only [Except.map] at h
      cases h
      have := parseLineBlockLoop_length _ _ _ _ _ _ _ _ heq
      simp only [List.length_cons, List.length_nil] at this ⊢
      omega
  | case4 endP tokens t h1 h2 nx tail h3 =>
    intro h
    simp only [parseStmtLoop, if_neg h1, if_pos h2, if_pos h3] at h
    cases heq : parseLineBlockLoop filename start tokens t.pos [] []
      (nx :: tail) with
    | error e =>
      rw [heq] at h
      simp [Except.map] at h
    | ok v =>
      rw [heq] at h
      simp only [Except.map] at h
      cases h
      have := parseLineBlockLoop_length _ _ _ _ _ _ _ _ heq
      simp only [List.length_cons] at this ⊢
      omega
  | case5 endP tokens t h1 h2 nx tail h3 h4 h5 =>
    intro h
    simp only [parseStmtLoop, if_neg h1, if_pos h2, if_neg h3, if_pos h4,
      if_pos h5] at h
    cases h
    have := lexT_length tail
    simp only [List.length_cons]
    omega
  | case6 endP tokens t h1 h2 nx tail h3 h4 h5 ih =>
    intro h
    simp only [parseStmtLoop, if_neg h1, if_pos h2, if_neg h3, if_pos h4,
      if_neg h5] at h
    have := ih _ h
    simp only [List.length_cons]
    omega
  | case7 endP tokens t h1 h2 nx tail h3 h4 ih =>
    intro h
    simp only [parseStmtLoop, if_neg h1, if_pos h2, if_neg h3, if_neg h4] at h
    have := ih _ h
    simp only [List.length_cons] at this ⊢
    omega
  | case8 endP tokens t tail h1 h2 ih =>
    intro h
    cases tail <;>
    · simp only [parseStmtLoop, if_neg h1, if_neg h2] at h
      have := ih _ h
      simp only [List.length_cons] at this ⊢
      omega

theorem parseStmt_length (filename : String) (t : Tok) (ts : List Tok) (r) :
    parseStmt filename (t :: ts) = .ok r → r.2.length ≤ ts.length := by
  simp only [parseStmt, lexT]
  exact parseStmtLoop_length _ _ _ _ _ _

/-- `stmt.Comment().Before = ...`: set the leading comments of a statement. -/
def GStmt.setBefore : GStmt → List GComment → GStmt
  | .line l, cms => .line { l with comments := { l.comments with before := cms } }
  | .block b, cms => .block { b with comments := { b.comments with before := cms } }
  | .comments c, cms => .comments { c with comments := { c.comments with before := cms } }

/-- The loop of `input.parseFile`: top-level statements, accumulating runs
of standalone comments into `CommentBlock`s; a comment block directly above
a statement becomes that statement's `Before` comments. -/
def parseFileLoop (filename : String) (stmts : List GStmt)
    (cb : Option GCommentBlock) (ts : List Tok) : Except GErr (List GStmt) :=
  match ts with
  | [] =>
    .ok (stmts ++ (match cb with | some c => [GStmt.comments c] | none => []))
  | t :: tail =>
    if t.kind = .punct '\n' then
      match cb with
      | some c => parseFileLoop filename (stmts ++ [.comments c]) none tail
      | none => parseFileLoop filename stmts none tail
    else if t.kind = .comment then
      let cb' : GCommentBlock :=
        match cb with
        | none => ⟨GComments.empty, t.pos⟩
        | some c => c
      parseFileLoop filename stmts
        (some { cb' with comments := { cb'.comments with
          before := cb'.comments.before ++ [⟨t.pos, t.text, false⟩] } }) tail
    else if t.kind = .eof then
      .ok (stmts ++ (match cb with | some c => [GStmt.comments c] | none => []))
    else
      match h : parseStmt filename (t :: tail) with
      | .error e => .error e
      | .ok (s, rest) =>
        let s2 := match cb with
          | some c => s.setBefore c.comments.before
          | none => s
        parseFileLoop filename (stmts ++ [s2]) none rest
termination_by ts.length
decreasing_by
  all_goals simp
  all_goals try omega
  exact Nat.lt_succ_of_le (parseStmt_length filename _ _ _ h)

/-- Advance a position past one rune: the `end.LineRune++; end.Byte++` of
the x/mod `Span` methods for `LParen`, `RParen` and `LineBlock`. -/
def posAfterRune (p : Pos) : Pos :=
  { p with lineRune := p.lineRune + 1, off := p.off + 1 }

/-- `Expr.Span` for a top-level statement (`Line`, `LineBlock`,
`CommentBlock`). -/
def GStmt.span : GStmt → Pos × Pos
  | .line l => (l.start, l.endPos)
  | .block b => (b.start, posAfterRune b.rparen.pos)
  | .comments c => (c.start, c.start)

/-- `FileSyntax.Span`. -/
def fileSpan (f : GFileSyntax) : Pos × Pos :=
  match f.stmt, f.stmt.getLast? with
  | s :: _, some e => ((GStmt.span s).1, (GStmt.span e).2)
  | _, _ => (⟨0, 0, 0⟩, ⟨0, 0, 0⟩)

/-- Pop the leading whole-line comments whose start is at or before `off`
(the pre-order loop condition `start.Byte >= line[0].Start.Byte`). -/
def takeBefore (off : Nat) (cs : List GComment) :
    List GComment × List GComment :=
  (cs.takeWhile (fun c => c.start.off ≤ off),
   cs.dropWhile (fun c => c.start.off ≤ off))

def preAssignLine (l : GLine) (cs : List GComment) : GLine × List GComment :=
  let r := takeBefore l.start.off cs
  ({ l with comments :=
      { l.comments with before := l.comments.before ++ r.1 } }, r.2)

def preAssignLines : List GLine → List GComment → List GLine × List GComment
  | [], cs => ([], cs)
  | l :: ls, cs =>
    let r1 := preAssignLine l cs
    let r2 := preAssignLines ls r1.2
    (r1.1 :: r2.1, r2.2)

/-- Pre-order walk of a block: the block node, its `LParen`, its lines,
its `RParen` (the expansion done by `input.order`). -/
def preAssignBlock (b : GLineBlock) (cs : List GComment) :
    GLineBlock × List GComment :=
  let rB := takeBefore b.start.off cs
  let rL := takeBefore b.lparen.pos.off rB.2
  let rLines := preAssignLines b.line rL.2
  let rR := takeBefore b.rparen.pos.off rLines.2
  ({ b with
      comments := { b.comments with before := b.comments.before ++ rB.1 },
      lparen := { b.lparen with comments :=
        { b.lparen.comments with
          before := b.lparen.comments.before ++ rL.1 } },
      line := rLines.1,
      rparen := { b.rparen with comments :=
        { b.rparen.comments with
          before := b.rparen.comments.before ++ rR.1 } } }, rR.2)

def preAssignStmt : GStmt → List GComment → GStmt × List GComment
  | .line l, cs =>
    let r := preAssignLine l cs
    (.line r.1, r.2)
  | .block b, cs =>
    let r := preAssignBlock b cs
    (.block r.1, r.2)
  | .comments c, cs =>
    let r := takeBefore c.start.off cs
    (.comments { c with comments :=
        { c.comments with before := c.comments.before ++ r.1 } }, r.2)

def preAssignStmts : List GStmt → List GComment → List GStmt × List GComment
  | [], cs => ([], cs)
  | s :: ss, cs =>
    let r1 := preAssignStmt s cs
    let r2 := preAssignStmts ss r1.2
    (r1.1 :: r2.1, r2.2)

/-- For a node spanning `startP..endP`, pop from the reversed suffix list
the comments starting at or after `endP` — unless the node spans several
lines, which the post-order loop skips. -/
def suffixFor (startP endP : Pos) (srev : List GComment) :
    List GComment × List GComment :=
  if startP.line ≠ endP.line then ([], srev)
  else
    (srev.takeWhile (fun c => endP.off ≤ c.start.off),
     srev.dropWhile (fun c => endP.off ≤ c.start.off))

def postAssignLine (l : GLine) (srev : List GComment) :
    GLine × List GComment :=
  let r := suffixFor l.start l.endPos srev
  ({ l with comments :=
      { l.comments with suffix := l.comments.suffix ++ r.1 } }, r.2)

def postAssignLinesRev : List GLine → List GComment →
    List GLine × List GComment
  | [], srev => ([], srev)
  | l :: ls, srev =>
    let r1 := postAssignLinesRev ls srev
    let r2 := postAssignLine l r1.2
    (r2.1 :: r1.1, r2.2)

/-- Reverse post-order inside a block: the block node itself, then its
`RParen`, then its lines backwards, then its `LParen`. -/
def postAssignBlock (b : GLineBlock) (srev : List GComment) :
    GLineBlock × List GComment :=
  let rB := suffixFor b.start (posAfterRune b.rparen.pos) srev
  let rR := suffixFor b.rparen.pos (posAfterRune b.rparen.pos) rB.2
  let rLines := postAssignLinesRev b.line rR.2
  let rL := suffixFor b.lparen.pos (posAfterRune b.lparen.pos) rLines.2
  ({ b with
      comments := { b.comments with suffix := b.comments.suffix ++ rB.1 },
      rparen := { b.rparen with comments :=
        { b.rparen.comments with
          suffix := b.rparen.comments.suffix ++ rR.1 } },
      line := rLines.1,
      lparen := { b.lparen with comments :=
        { b.lparen.comments with
          suffix := b.lparen.comments.suffix ++ rL.1 } } }, rL.2)

def postAssignStmt : GStmt → List GComment → GStmt × List GComment
  | .line l, srev =>
    let r := postAssignLine l srev
    (.line r.1, r.2)
  | .block b, srev =>
    let r := postAssignBlock b srev
    (.block r.1, r.2)
  | .comments c, srev =>
    let r := suffixFor c.start c.start srev
    (.comments { c with comments :=
        { c.comments with suffix := c.comments.suffix ++ r.1 } }, r.2)

def postAssignStmtsRev : List GStmt → List GComment →
    List GStmt × List GComment
  | [], srev => ([], srev)
  | s :: ss, srev =>
    let r1 := postAssignStmtsRev ss srev
    let r2 := postAssignStmt s r1.2
    (r2.1 :: r1.1, r2.2)

def GComments.revSuffix (c : GComments) : GComments :=
  { c with suffix := c.suffix.reverse }

/-- The final pass of `assignComments`: every node's suffix list was filled
backwards and is reversed to restore source order. -/
def reverseSuffixes : GStmt → GStmt
  | .line l => .line { l with comments := l.comments.revSuffix }
  | .block b => .block { b with
      comments := b.comments.revSuffix,
      lparen := { b.lparen with comments := b.lparen.comments.revSuffix },
      rparen := { b.rparen with comments := b.rparen.comments.revSuffix },
      line := b.line.map (fun l => { l with comments := l.comments.revSuffix }) }
  | .comments c => .comments { c with comments := c.comments.revSuffix }

/-- `input.assignComments`: split the recorded comments into whole-line and
suffix comments; assign whole-line comments to the pre-order node that
follows them (leftovers to the file's `after` list); assign suffix
comments scanning the post-order list backwards, skipping the file node
and nodes spanning several lines (leftovers to the file's `before` list);
finally restore the source order of every suffix list. -/
def assignComments (f : GFileSyntax) (cms : List GComment) : GFileSyntax :=
  let lineCms := cms.filter (fun c => c.suffix = false)
  let sufCms := cms.filter (fun c => c.suffix = true)
  let rF := takeBefore (fileSpan f).1.off lineCms
  let rPre := preAssignStmts f.stmt rF.2
  let f1 : GFileSyntax := { f with
    comments := { f.comments with
      before := f.comments.before ++ rF.1,
      after := f.comments.after ++ rPre.2 },
    stmt := rPre.1 }
  let rPost := postAssignStmtsRev f1.stmt sufCms.reverse
  { f1 with
    stmt := rPost.1.map reverseSuffixes,
    comments := { f1.comments with
      before := f1.comments.before ++ rPost.2.reverse } }

/-- `parse`: the parse boundary.  `in.parseErrors` is appended to only by
`input.Error`, which immediately panics carrying the error list; the
deferred handler returns that list — holding exactly the error that
aborted the parse — so the boundary error is the singleton list of the
aborting error. -/
def parse (filename : String) (data : List Char) :
    Except (List GErr) GFileSyntax :=
  match tokenize filename data with
  | .error e => .error [e]
  | .ok (toks, cms) =>
    match parseFileLoop filename [] none toks with
    | .error e => .error [e]
    | .ok stmts => .ok (assignComments ⟨filename, GComments.empty, stmts⟩ cms)

/-- `module.Version`. -/
structure ModVer where
  path : String
  version : String
deriving DecidableEq, Repr

/-- `modfile.Replace`: a replace entry.  The non-owning back-reference
`Syntax *Line` is modelled by the line's id; the zero value produced by
`*r = modfile.Replace{}` has a nil `Syntax`, modelled as `none`. -/
structure GReplace where
  old : ModVer
  new : ModVer
  syntaxId : Option Nat
deriving DecidableEq, Repr

/-- The state `addReplace` works on: the `FileSyntax` tree plus the
`[]*Replace` slice of the model. -/
structure EditState where
  file : GFileSyntax
  replace : List GReplace
deriving DecidableEq, Repr

/-- Apply `f` to every line of the tree whose id is `id` (pointer
dereference in Go: with distinct ids this touches exactly the referenced
line). -/
def mapLineById (f : GLine → GLine) (id : Nat) (x : GFileSyntax) :
    GFileSyntax :=
  { x with stmt := x.stmt.map fun s =>
    match s with
    | .line l => .line (if l.id = id then f l else l)
    | .block b => .block { b with
        line := b.line.map fun l => if l.id = id then f l else l }
    | .comments c => .comments c }

/-- `updateLine`: replace the line's tokens, dropping the leading keyword
when the line lives inside a block. -/
def updateLine (x : GFileSyntax) (id : Nat) (tokens : List String) :
    GFileSyntax :=
  mapLineById
    (fun l => { l with token := if l.inBlock then tokens.drop 1 else tokens })
    id x

/-- `markLineAsRemoved`: clear the line's tokens and its suffix comments so
that `Cleanup` drops it from output. -/
def markLineAsRemoved (x : GFileSyntax) (id : Nat) : GFileSyntax :=
  mapLineById
    (fun l =>
      { l with
        token := ([] : List String),
        comments := { l.comments with suffix := [] } }) id x

/-- A hint for `addLine`: in Go a `modfile.Expr` pointer that is either a
`*Line` or a `*LineBlock`. -/
inductive Hint where
  | line (id : Nat)
  | block (id : Nat)
deriving DecidableEq, Repr

/-- The backward scan of `addLine` with a nil hint: the last statement
whose first token matches (a `Line` must also have non-nil tokens; Go
reads `Token[0]` of a `LineBlock` unconditionally, so blocks are assumed
to carry a keyword). -/
def findHintRev (tok0 : String) : List GStmt → Option Hint
  | [] => none
  | s :: ss =>
    match s with
    | .line l =>
      if l.token ≠ [] ∧ l.token.head? = some tok0 then some (.line l.id)
      else findHintRev tok0 ss
    | .block b =>
      if b.token.head? = some tok0 then some (.block b.id)
      else findHintRev tok0 ss
    | .comments _ => findHintRev tok0 ss

def findHint (stmts : List GStmt) (tok0 : String) : Option Hint :=
  findHintRev tok0 stmts.reverse

/-- A brand-new `&Line{Token: tokens}` (zero positions and comments). -/
def emptyLine (tokens : List String) (inB : Bool) (id : Nat) : GLine :=
  ⟨GComments.empty, ⟨0, 0, 0⟩, tokens, inB, ⟨0, 0, 0⟩, id⟩

/-- Ids in use in the tree; `freshId` models allocation of a new object. -/
def stmtMaxId : GStmt → Nat
  | .line l => l.id
  | .block b => max b.id ((b.line.map (·.id)).foldr max 0)
  | .comments _ => 0

def freshId (x : GFileSyntax) : Nat :=
  (x.stmt.map stmtMaxId).foldr max 0 + 1

def insertLineAt (ls : List GLine) (k : Nat) (l : GLine) : List GLine :=
  ls.take k ++ [l] ++ ls.drop k

/-- The forward scan of `addLine` once a hint is fixed: find the statement
(or in-block line) that *is* the hint and place the new line there;
`none` when the hint is not found.  `fid` is the id of the new line, `bid`
the id of a block created by converting a bare line. -/
def applyHint (tok0 : String) (tokens : List String) (fid bid : Nat) :
    List GStmt → Hint → Option (List GStmt)
  | [], _ => none
  | s :: ss, h =>
    match s, h with
    | .line l, .line id =>
      if l.id = id then
        some (if l.token = [] ∨ ¬ (l.token.head? = some tok0) then
          s :: .line (emptyLine tokens false fid) :: ss
        else
          -- convert the line into a one-element block, then append
          .block ⟨GComments.empty, ⟨0, 0, 0⟩, ⟨GComments.empty, ⟨0, 0, 0⟩⟩,
            l.token.take 1,
            [{ l with inBlock := true, token := l.token.drop 1 },
             emptyLine (tokens.drop 1) true fid],
            ⟨GComments.empty, ⟨0, 0, 0⟩⟩, bid⟩ :: ss)
      else (applyHint tok0 tokens fid bid ss h).map (s :: ·)
    | .block b, .block id =>
      if b.id = id then
        some (if ¬ (b.token.head? = some tok0) then
          s :: .line (emptyLine tokens false fid) :: ss
        else
          .block { b with
            line := b.line ++ [emptyLine (tokens.drop 1) true fid] } :: ss)
      else (applyHint tok0 tokens fid bid ss h).map (s :: ·)
    | .block b, .line id =>
      match b.line.findIdx? (fun l => l.id = id) with
      | some j =>
        some (if ¬ (b.token.head? = some tok0) then
          s :: .line (emptyLine tokens false fid) :: ss
        else
          .block { b with
            line := insertLineAt b.line (j + 1)
              (emptyLine (tokens.drop 1) true fid) } :: ss)
      | none => (applyHint tok0 tokens fid bid ss h).map (s :: ·)
    | .line _, .block _ => (applyHint tok0 tokens fid bid ss h).map (s :: ·)
    | .comments _, _ => (applyHint tok0 tokens fid bid ss h).map (s :: ·)

/-- `addLine`: add a line with the given tokens, using the hint rules of
read.go.  Returns the new tree and the id of the created line (Go returns
the `*Line` itself). -/
def addLine (x : GFileSyntax) (hint : Option Hint) (tokens : List String) :
    GFileSyntax × Nat :=
  let hint2 := match hint with
    | none => findHint x.stmt (tokens.headD "")
    | some h => some h
  let fid := freshId x
  match hint2 with
  | none => ({ x with stmt := x.stmt ++ [.line (emptyLine tokens false fid)] }, fid)
  | some h =>
    match applyHint (tokens.headD "") tokens fid (fid + 1) x.stmt h with
    | some stmts2 => ({ x with stmt := stmts2 }, fid)
    | none => ({ x with stmt := x.stmt ++ [.line (emptyLine tokens false fid)] }, fid)

/-- `strings.Contains`, computed on the char lists. -/
def containsSubL (pat : List Char) : List Char → Bool
  | [] => pat.isPrefixOf []
  | c :: cs => pat.isPrefixOf (c :: cs) || containsSubL pat cs

def containsSub (s pat : String) : Bool := containsSubL pat.data s.data

/-- `modfile.MustQuote` (x/mod): spaces, quotes, reserved punctuation,
unprintable runes, the empty string, or a comment start force quoting. -/
def mustQuote (s : String) : Bool :=
  s.data.any (fun c => isGoSpace c ∨ c = '"' ∨ c = '\'' ∨ c = '`' ∨
    c = '(' ∨ c = ')' ∨ c = '[' ∨ c = ']' ∨ c = '{' ∨ c = '}' ∨ c = ',' ∨
    ¬ unicodeIsPrint c) ∨
  s = "" ∨ containsSub s "//" ∨ containsSub s "/*"

/-- `strconv.Quote`, modelled as double-quoting with backslash escapes for
the quote and the backslash (sufficient for the token strings met here). -/
def goQuote (s : String) : String :=
  "\"" ++ String.mk (s.data.flatMap
    (fun c => if c = '"' ∨ c = '\\' then ['\\', c] else [c])) ++ "\""

/-- `modfile.AutoQuote`. -/
def autoQuote (s : String) : String :=
  if mustQuote s then goQuote s else s

/-- The entry loop of `addReplace`: returns the rewritten entries, the
mutated tree, whether a new entry is still needed, and the hint (the
syntax reference of the last entry seen whose — possibly just zeroed —
old path equals `oldPath`; the entry updated in place is skipped by
`continue`). -/
def addReplaceLoop (oldPath oldVers : String) (newv : ModVer)
    (tokens : List String) :
    List GReplace → GFileSyntax → Bool → Option Nat →
    List GReplace × GFileSyntax × Bool × Option Nat
  | [], x, need, hint => ([], x, need, hint)
  | r :: rs, x, need, hint =>
    if r.old.path = oldPath ∧ (oldVers = "" ∨ r.old.version = oldVers) then
      if need then
        -- found replacement for old; update to use new
        let x2 := match r.syntaxId with
          | some id => updateLine x id tokens
          | none => x
        let rest := addReplaceLoop oldPath oldVers newv tokens rs x2 false hint
        ({ r with new := newv } :: rest.1, rest.2)
      else
        -- already added; delete other replacements for same
        let x2 := match r.syntaxId with
          | some id => markLineAsRemoved x id
          | none => x
        let r2 : GReplace := ⟨⟨"", ""⟩, ⟨"", ""⟩, none⟩
        let hint2 := if r2.old.path = oldPath then r2.syntaxId else hint
        let rest := addReplaceLoop oldPath oldVers newv tokens rs x2 need hint2
        (r2 :: rest.1, rest.2)
    else
      let hint2 := if r.old.path = oldPath then r.syntaxId else hint
      let rest := addReplaceLoop oldPath oldVers newv tokens rs x need hint2
      (r :: rest.1, rest.2)

/-- `addReplace` (read.go).  The Go function's `error` result is `nil` on
every path (its body never returns anything else), so the embedding
returns the new state directly. -/
def addReplace (st : EditState) (oldPath oldVers newPath newVers : String) :
    EditState :=
  let oldv : ModVer := ⟨oldPath, oldVers⟩
  let newv : ModVer := ⟨newPath, newVers⟩
  let tokens := ["replace", autoQuote oldPath] ++
    (if oldVers ≠ "" then [oldVers] else []) ++
    ["=>", autoQuote newPath] ++
    (if newVers ≠ "" then [newVers] else [])
  let res := addReplaceLoop oldPath oldVers newv tokens st.replace st.file
    true none
  if res.2.2.1 then
    let al := addLine res.2.1 (res.2.2.2.map Hint.line) tokens
    ⟨al.1, res.1 ++ [⟨oldv, newv, some al.2⟩]⟩
  else ⟨res.2.1, res.1⟩

/-- The match test of the `addReplace` entry loop: same old path, and
either a wildcard request (empty `oldVers`) or the same old version. -/
def matchesOld (oldPath oldVers : String) (r : GReplace) : Prop :=
  r.old.path = oldPath ∧ (oldVers = "" ∨ r.old.version = oldVers)

instance (oldPath oldVers : String) (r : GReplace) :
    Decidable (matchesOld oldPath oldVers r) :=
  inferInstanceAs (Decidable (_ ∧ _))

/-- The first-token match used by the backward scan of `addLine` with no
hint: a line must have tokens whose head is the keyword, a block's head
token must be the keyword. -/
def stmtMatches (tok0 : String) : GStmt → Prop
  | .line l => l.token ≠ [] ∧ l.token.head? = some tok0
  | .block b => b.token.head? = some tok0
  | .comments _ => False

instance (tok0 : String) : (s : GStmt) → Decidable (stmtMatches tok0 s)
  | .line _ => inferInstanceAs (Decidable (_ ∧ _))
  | .block _ => inferInstanceAs (Decidable (_ = _))
  | .comments _ => inferInstanceAs (Decidable False)

/-- The hint `findHintRev` produces for a matching statement. -/
def hintOf : GStmt → Hint
  | .line l => .line l.id
  | .block b => .block b.id
  | .comments _ => .line 0

def hintId : Hint → Nat
  | .line i => i
  | .block i => i

/-- All line and block ids occurring in a statement. -/
def stmtIds : GStmt → List Nat
  | .line l => [l.id]
  | .block b => b.id :: b.line.map (·.id)
  | .comments _ => []

def fileIds (x : GFileSyntax) : List Nat := (x.stmt.map stmtIds).flatten

/-- A tree is well formed for editing when all its node ids are distinct
(in Go distinct nodes are distinct pointers, which the ids model). -/
def wfIds (x : GFileSyntax) : Prop := (fileIds x).Nodup

instance (x : GFileSyntax) : Decidable (wfIds x) :=
  inferInstanceAs (Decidable (List.Nodup _))

/-- C8, specification side: the statement obtained by appending the new
line at the end of a matching statement — a bare line is first converted
into a one-element block, exactly as `addLine` builds it. -/
def appendInto (s : GStmt) (tokens : List String) (fid bid : Nat) : GStmt :=
  match s with
  | .line l =>
    .block ⟨GComments.empty, ⟨0, 0, 0⟩, ⟨GComments.empty, ⟨0, 0, 0⟩⟩,
      l.token.take 1,
      [{ l with inBlock := true, token := l.token.drop 1 },
       emptyLine (tokens.drop 1) true fid],
      ⟨GComments.empty, ⟨0, 0, 0⟩⟩, bid⟩
  | .block b =>
    .block { b with line := b.line ++ [emptyLine (tokens.drop 1) true fid] }
  | .comments c => .comments c

/-- C8, specification side: walk the statements from the end of the file
and append the new line inside the first one met (the last in file order)
whose first token matches; `none` when no statement matches.  The input
list is the reversed statement list. -/
def specAddLineRev (tok0 : String) (tokens : List String) (fid bid : Nat) :
    List GStmt → Option (List GStmt)
  | [] => none
  | s :: ss =>
    if stmtMatches tok0 s then some (appendInto s tokens fid bid :: ss)
    else (specAddLineRev tok0 tokens fid bid ss).map (s :: ·)

/-- C8, specification side: `addLine` with no hint as the claim reads —
append to the end of the last statement sharing the new line's keyword,
or to the end of the file when there is none. -/
def specAddLine (x : GFileSyntax) (tokens : List String) :
    GFileSyntax × Nat :=
  let fid := freshId x
  match specAddLineRev (tokens.headD "") tokens fid (fid + 1)
      x.stmt.reverse with
  | some rev => ({ x with stmt := rev.reverse }, fid)
  | none =>
    ({ x with stmt := x.stmt ++ [.line (emptyLine tokens false fid)] }, fid)

/-- Go `bytes.TrimSpace` on the char-list model. -/
def trimSpaceL (s : List Char) : List Char :=
  ((s.dropWhile isGoSpace).reverse.dropWhile isGoSpace).reverse

/-- Cut a line at the first `//` (`bytes.Index(line, slashSlash)`). -/
def stripLineComment : List Char → List Char
  | [] => []
  | c :: cs =>
    if c = '/' ∧ cs.head? = some '/' then []
    else c :: stripLineComment cs

def hexVal (c : Char) : Option Nat :=
  if '0' ≤ c ∧ c ≤ '9' then some (c.toNat - 48)
  else if 'a' ≤ c ∧ c ≤ 'f' then some (c.toNat - 87)
  else if 'A' ≤ c ∧ c ≤ 'F' then some (c.toNat - 55)
  else none

def isOctal (c : Char) : Bool := '0' ≤ c ∧ c ≤ '7'

def isValidRune (v : Nat) : Bool :=
  v < 0xD800 ∨ (0xE000 ≤ v ∧ v ≤ 0x10FFFF)

/-- The body loop of `strconv.Unquote` for a double-quoted string
(`UnquoteChar` with quote `"`): an unescaped quote is an error; a
backslash introduces one of the Go escape sequences.  Hex, octal and
Unicode escape values are represented as the corresponding code point. -/
def unquoteCharsD : List Char → Option (List Char)
  | [] => some []
  | c :: cs =>
    if c = '"' then none
    else if c = '\\' then
      match cs with
      | [] => none
      | e :: cs2 =>
        if e = 'a' then (unquoteCharsD cs2).map (Char.ofNat 0x07 :: ·)
        else if e = 'b' then (unquoteCharsD cs2).map (Char.ofNat 0x08 :: ·)
        else if e = 'f' then (unquoteCharsD cs2).map (Char.ofNat 0x0C :: ·)
        else if e = 'n' then (unquoteCharsD cs2).map ('\n' :: ·)
        else if e = 'r' then (unquoteCharsD cs2).map ('\r' :: ·)
        else if e = 't' then (unquoteCharsD cs2).map ('\t' :: ·)
        else if e = 'v' then (unquoteCharsD cs2).map (Char.ofNat 0x0B :: ·)
        else if e = '\\' then (unquoteCharsD cs2).map ('\\' :: ·)
        else if e = '"' then (unquoteCharsD cs2).map ('"' :: ·)
        else if e = 'x' then
          match cs2 with
          | h1 :: h2 :: cs3 =>
            match hexVal h1, hexVal h2 with
            | some a, some b =>
              (unquoteCharsD cs3).map (Char.ofNat (16 * a + b) :: ·)
            | _, _ => none
          | _ => none
        else if e = 'u' then
          match cs2 with
          | h1 :: h2 :: h3 :: h4 :: cs3 =>
            match hexVal h1, hexVal h2, hexVal h3, hexVal h4 with
            | some a, some b, some c1, some d =>
              let v := 4096 * a + 256 * b + 16 * c1 + d
              if isValidRune v then (unquoteCharsD cs3).map (Char.ofNat v :: ·)
              else none
            | _, _, _, _ => none
          | _ => none
        else if e = 'U' then
          match cs2 with
          | h1 :: h2 :: h3 :: h4 :: h5 :: h6 :: h7 :: h8 :: cs3 =>
            match hexVal h1, hexVal h2, hexVal h3, hexVal h4,
                hexVal h5, hexVal h6, hexVal h7, hexVal h8 with
            | some a, some b, some c1, some d,
              some a2, some b2, some c2, some d2 =>
              let v := ((((((a * 16 + b) * 16 + c1) * 16 + d) * 16 + a2) *
                16 + b2) * 16 + c2) * 16 + d2
              if isValidRune v then (unquoteCharsD cs3).map (Char.ofNat v :: ·)
              else none
            | _, _, _, _, _, _, _, _ => none
          | _ => none
        else if isOctal e then
          match cs2 with
          | o2 :: o3 :: cs3 =>
            if isOctal o2 ∧ isOctal o3 then
              let v := 64 * (e.toNat - 48) + 8 * (o2.toNat - 48) +
                (o3.toNat - 48)
              if v ≤ 255 then (unquoteCharsD cs3).map (Char.ofNat v :: ·)
              else none
            else none
          | _ => none
        else none
    else (unquoteCharsD cs).map (c :: ·)

/-- `strconv.Unquote`, for the double-quote and backquote forms reachable
from `ModulePath`: the whole string must be one quoted literal; a
backquoted string may not contain a backquote and has its carriage
returns removed; a double-quoted string may not contain a newline and is
unescaped by `unquoteCharsD`. -/
def goUnquote (s : String) : Option String :=
  match s.data with
  | [] => none
  | [_] => none
  | q :: rest =>
    if q = '`' then
      if rest.getLast? = some '`' then
        let mid := rest.dropLast
        if mid.contains '`' then none
        else some (String.mk (mid.filter (· ≠ '\r')))
      else none
    else if q = '"' then
      if rest.getLast? = some '"' then
        let mid := rest.dropLast
        if mid.contains '\n' then none
        else (unquoteCharsD mid).map String.mk
      else none
    else none

theorem dropNlLt (c : Char) (cs : List Char) :
    ((((c :: cs).dropWhile (· ≠ '\n'))).drop 1).length < (c :: cs).length := by
  have h1 : ((c :: cs).dropWhile (fun x => decide (x ≠ '\n'))).length ≤
      cs.length + 1 := by
    simpa using (List.dropWhile_sublist (l := c :: cs)
      (fun x => decide (x ≠ '\n'))).length_le
  simp only [List.length_drop, List.length_cons]
  omega

/-- The loop of `ModulePath`: take the next line, strip any `//` comment,
trim space; skip the line unless it is `module` followed by whitespace and
a non-empty argument; unquote a quoted argument (malformed quoting returns
`""` at once). -/
def modulePathLoop : List Char → String
  | [] => ""
  | c :: cs =>
    let line := (c :: cs).takeWhile (· ≠ '\n')
    let rest := ((c :: cs).dropWhile (· ≠ '\n')).drop 1
    let line2 := trimSpaceL (stripLineComment line)
    if line2.take 6 = "module".data then
      let arg0 := line2.drop 6
      let n := arg0.length
      let arg := trimSpaceL arg0
      if arg.length = n ∨ arg.length = 0 then modulePathLoop rest
      else if arg.head? = some '"' ∨ arg.head? = some '`' then
        match goUnquote (String.mk arg) with
        | none => ""
        | some p => p
      else String.mk arg
    else modulePathLoop rest
termination_by mod => mod.length
decreasing_by
  all_goals exact dropNlLt _ _

/-- `ModulePath` (read.go). -/
def ModulePath (mod : List Char) : String := modulePathLoop mod

/-- A Go `map[string][]string` with `m[k] = append(m[k], v)` modelled as an
insertion-ordered association list (the map is only ever read back by key
lookup). -/
def mapAppend (m : List (String × List String)) (k v : String) :
    List (String × List String) :=
  match m.find? (fun p => p.1 = k) with
  | some _ => m.map (fun p => if p.1 = k then (p.1, p.2 ++ [v]) else p)
  | none => m ++ [(k, [v])]

def lookupMap (m : List (String × List String)) (k : String) :
    Option (List String) :=
  (m.find? (fun p => p.1 = k)).map (·.2)

/-- Go `strings.HasSuffix` on the char-list model. -/
def strEndsWith (s pat : String) : Bool :=
  s.data.reverse.take pat.data.length = pat.data.reverse

/-- Go `filepath.Ext`: the suffix beginning at the final dot in the final
slash-separated element, or `""`. -/
def filepathExt (name : String) : String :=
  let rev := name.data.reverse
  let pre := rev.takeWhile (fun c => ¬ (c = '.' ∨ c = '/'))
  match rev.drop pre.length with
  | '.' :: _ => String.mk ('.' :: pre.reverse)
  | _ => ""

/-- The file loop of `getImportToFilesMap`, with the directory read and the
per-file import extraction (`os.ReadDir` + `load.GetGnoFileImports`)
abstracted as an input listing of `(filename, imports)` pairs in directory
order.  Files whose extension is not `.gno` and `_filetest.gno` files are
skipped; every import of a kept file maps to that file. -/
def getImportToFilesMapLoop (m : List (String × List String)) :
    List (String × List String) → List (String × List String)
  | [] => m
  | (filename, imports) :: rest =>
    if filepathExt filename ≠ ".gno" then getImportToFilesMapLoop m rest
    else if strEndsWith filename "_filetest.gno" then
      getImportToFilesMapLoop m rest
    else
      getImportToFilesMapLoop
        (imports.foldl (fun acc imp => mapAppend acc imp filename) m) rest

def getImportToFilesMap (listing : List (String × List String)) :
    List (String × List String) :=
  getImportToFilesMapLoop [] listing

/-- The per-argument body of `formatModWhyStanzas`: header line, then
the importing files one per line, or the parenthesized "does not need"
note. -/
def modWhyBody (modulePath : String) (m : List (String × List String))
    (arg : String) : String :=
  match lookupMap m arg with
  | none => "(module " ++ modulePath ++ " does not need package " ++ arg ++ ")\n"
  | some files => String.join (files.map (fun file => file ++ "\n"))

/-- The stanza loop of `formatModWhyStanzas`: `i` tracks the Go loop index
so that the blank separator line is added after every stanza but the
last. -/
def formatModWhyLoop (modulePath : String) (m : List (String × List String))
    (total : Nat) : Nat → List String → String
  | _, [] => ""
  | i, arg :: rest =>
    "# " ++ arg ++ "\n" ++ modWhyBody modulePath m arg ++
    (if i < total - 1 then "\n" else "") ++
    formatModWhyLoop modulePath m total (i + 1) rest

/-- `formatModWhyStanzas` (read.go). -/
def formatModWhyStanzas (modulePath : String) (args : List String)
    (m : List (String × List String)) : String :=
  formatModWhyLoop modulePath m args.length 0 args

/-! ### Counting comments attached to the tree -/

def GComments.count (c : GComments) : Nat :=
  c.before.length + c.suffix.length + c.after.length

def stmtCommentCount : GStmt → Nat
  | .line l => l.comments.count
  | .block b => b.comments.count + b.lparen.comments.count +
      b.rparen.comments.count + (b.line.map (fun l => l.comments.count)).sum
  | .comments c => c.comments.count

/-- Total number of comments attached anywhere in the file: all nodes'
before/suffix/after lists plus the file-level lists. -/
def fileCommentCount (f : GFileSyntax) : Nat :=
  f.comments.count + (f.stmt.map stmtCommentCount).sum

def GComments.emptyCount (c : GComments) : Nat :=
  ((c.before ++ c.suffix ++ c.after).filter (fun cm => cm.text = "")).length

def stmtEmptyCommentCount : GStmt → Nat
  | .line l => l.comments.emptyCount
  | .block b => b.comments.emptyCount + b.lparen.comments.emptyCount +
      b.rparen.comments.emptyCount +
      (b.line.map (fun l => l.comments.emptyCount)).sum
  | .comments c => c.comments.emptyCount

/-- Number of empty placeholder comments (`Token == ""`) in the file. -/
def fileEmptyCommentCount (f : GFileSyntax) : Nat :=
  f.comments.emptyCount + (f.stmt.map stmtEmptyCommentCount).sum

/-! ### C1 — lexer error collection -/

unseal tokenizeLoop parseLineBlockLoop parseFileLoop in
/-- C1 (counterexample): this document holds two malformed tokens (a `/*`
comment on each of its two lines), yet the parse boundary reports an error
list with a single entry, for the first one only: parsing stops at the
first malformed token instead of collecting all lexer errors. -/
theorem parse_stops_at_first_lexer_error :
    parse "gno.mod" "/* a\n/* b".data =
      .error [⟨"gno.mod", ⟨1, 1, 0⟩,
        "mod files must use // comments (not /* */ comments)"⟩] := rfl

/-- C1 (amended): lexer and parser errors are returned as an ordered error
list at the parse boundary (never thrown to the caller), but the first
error aborts the parse, so the returned list always contains exactly one
error. -/
theorem parse_error_list_singleton (filename : String) (data : List Char)
    (es : List GErr) (h : parse filename data = .error es) :
    es.length = 1 := by
  simp only [parse] at h
  split at h
  · cases h
    rfl
  · split at h
    · cases h
      rfl
    · exact Except.noConfusion h

unseal tokenizeLoop parseLineBlockLoop parseFileLoop in
/-- C1 (witness): the amended theorem applied at a concrete input. -/
theorem parse_error_list_singleton_witness :
    [GErr.mk "gno.mod" ⟨1, 1, 0⟩
      "mod files must use // comments (not /* */ comments)"].length = 1 :=
  parse_error_list_singleton "gno.mod" "/* a\n/* b".data _ rfl

/-! ### C5 — `( )` in the middle of a line -/

/-- C5: when `(` is immediately followed by `)` in the middle of a line
(the token after `)` is not an end-of-line token), the parser does not
create a `LineBlock`: both parentheses are appended to the current line as
two literal tokens and the statement loop continues with the rest of the
line. -/
theorem parseStmt_paren_pair_mid_line (filename : String) (start endP : Pos)
    (tokens : List String) (tl tr t : Tok) (ts : List Tok)
    (hl : tl.kind = .punct '(') (hr : tr.kind = .punct ')')
    (ht : ¬ t.kind.isEOL) :
    parseStmtLoop filename start endP tokens (tl :: tr :: t :: ts) =
      parseStmtLoop filename start endP (tokens ++ [tl.text, tr.text])
        (t :: ts) := by
  have h1 : ¬ tl.kind.isEOL = true := by simp [hl, TokKind.isEOL]
  have h2 : ¬ tr.kind.isEOL = true := by simp [hr, TokKind.isEOL]
  have h3 : ¬ (peekKind (t :: ts)).isEOL = true := by simpa [peekKind] using ht
  simp only [parseStmtLoop, if_neg h1, if_pos hl, if_neg h2, if_pos hr,
    if_neg h3]

/-- C5 (witness): the theorem applied to the concrete statement
`x ( ) y`. -/
theorem parseStmt_paren_pair_mid_line_witness :
    parseStmtLoop "f" ⟨1, 1, 0⟩ ⟨1, 2, 1⟩ ["x"]
      [⟨.punct '(', ⟨1, 3, 2⟩, ⟨1, 4, 3⟩, "("⟩,
       ⟨.punct ')', ⟨1, 5, 4⟩, ⟨1, 6, 5⟩, ")"⟩,
       ⟨.ident, ⟨1, 7, 6⟩, ⟨1, 8, 7⟩, "y"⟩] =
    parseStmtLoop "f" ⟨1, 1, 0⟩ ⟨1, 2, 1⟩ ["x", "(", ")"]
      [⟨.ident, ⟨1, 7, 6⟩, ⟨1, 8, 7⟩, "y"⟩] :=
  parseStmt_paren_pair_mid_line "f" ⟨1, 1, 0⟩ ⟨1, 2, 1⟩ ["x"] _ _ _ []
    rfl rfl (by decide)

/-! ### C6 — blank lines inside a block -/

unseal tokenizeLoop parseLineBlockLoop parseFileLoop in
/-- C6 (counterexample): in the first document the block has two
consecutive blank lines between its entries but only one empty placeholder
comment is attached; in the second the block has one blank line (before
its first entry) and no placeholder at all is attached.  Re-serialization
cannot reproduce the vertical spacing of either. -/
theorem parse_blank_lines_not_all_preserved :
    (parse "f" "require (\n\ta v1.0.0\n\n\n\tb v2.0.0\n)\n".data).map
      fileEmptyCommentCount = .ok 1 ∧
    (parse "f" "require (\n\n\ta v1.0.0\n)\n".data).map
      fileEmptyCommentCount = .ok 0 :=
  ⟨rfl, rfl⟩

/-- C6 (amended): a blank line inside a block is recorded as an empty
placeholder comment attached to the following element (or closing paren)
only when there is something before it to separate: a placeholder is
appended iff the pending comment list is empty and the block already has a
line, or the pending list ends with a real (non-empty) comment — so runs
of blank lines collapse to one placeholder and leading blank lines are
dropped. -/
theorem parseLineBlock_blank_line (filename : String) (start : Pos)
    (token : List String) (lp : Pos) (lines : List GLine)
    (comments : List GComment) (t : Tok) (ts : List Tok)
    (ht : t.kind = .punct '\n') :
    parseLineBlockLoop filename start token lp lines comments (t :: ts) =
      parseLineBlockLoop filename start token lp lines
        (if (comments = [] ∧ lines ≠ []) ∨
            (comments ≠ [] ∧ ¬ (comments.getLast?.map (·.text) = some ""))
         then comments ++ [⟨⟨0, 0, 0⟩, "", false⟩] else comments) ts := by
  have h1 : ¬ t.kind = TokKind.eolcomment := by simp [ht]
  simp only [parseLineBlockLoop, if_neg h1, if_pos ht]
  congr 1
  cases hc : comments.getLast? with
  | none =>
    have hce : comments = [] := by simpa using hc
    subst hce
    simp
  | some c =>
    have hcne : comments ≠ [] := by
      intro he
      rw [he] at hc
      simp at hc
    simp only [hc]
    by_cases hct : c.text = ""
    · simp [hct, hcne]
    · simp [hct, hcne]

/-- C6 (witness): the amended step equation at a concrete state — a blank
line right after an existing line adds one placeholder. -/
theorem parseLineBlock_blank_line_witness :
    parseLineBlockLoop "f" ⟨1, 1, 0⟩ ["require"] ⟨1, 9, 8⟩
      [emptyLine ["a", "v1.0.0"] true 0] []
      [⟨.punct '\n', ⟨3, 1, 20⟩, ⟨4, 1, 21⟩, "\n"⟩] =
    parseLineBlockLoop "f" ⟨1, 1, 0⟩ ["require"] ⟨1, 9, 8⟩
      [emptyLine ["a", "v1.0.0"] true 0]
      [⟨⟨0, 0, 0⟩, "", false⟩] [] := by
  have h := parseLineBlock_blank_line "f" ⟨1, 1, 0⟩ ["require"] ⟨1, 9, 8⟩
    [emptyLine ["a", "v1.0.0"] true 0] []
    ⟨.punct '\n', ⟨3, 1, 20⟩, ⟨4, 1, 21⟩, "\n"⟩ [] rfl
  simpa using h

/-! ### C4 — comment conservation -/

theorem takeBefore_length (off : Nat) (cs : List GComment) :
    (takeBefore off cs).1.length + (takeBefore off cs).2.length = cs.length := by
  simp only [takeBefore]
  rw [← List.length_append, List.takeWhile_append_dropWhile]

theorem suffixFor_length (s e : Pos) (srev : List GComment) :
    (suffixFor s e srev).1.length + (suffixFor s e srev).2.length =
      srev.length := by
  simp only [suffixFor]
  split
  · simp
  · rw [← List.length_append, List.takeWhile_append_dropWhile]

theorem preAssignLine_count (l : GLine) (cs : List GComment) :
    (preAssignLine l cs).1.comments.count + (preAssignLine l cs).2.length =
      l.comments.count + cs.length := by
  have h := takeBefore_length l.start.off cs
  simp only [preAssignLine, GComments.count]
  simp only [List.length_append]
  omega

theorem preAssignLines_count (ls : List GLine) (cs : List GComment) :
    ((preAssignLines ls cs).1.map (fun l => l.comments.count)).sum +
      (preAssignLines ls cs).2.length =
    (ls.map (fun l => l.comments.count)).sum + cs.length := by
  induction ls generalizing cs with
  | nil => simp [preAssignLines]
  | cons l ls ih =>
    simp only [preAssignLines, List.map_cons, List.sum_cons]
    have h1 := preAssignLine_count l cs
    have h2 := ih (preAssignLine l cs).2
    omega

theorem preAssignBlock_count (b : GLineBlock) (cs : List GComment) :
    stmtCommentCount (.block (preAssignBlock b cs).1) +
      (preAssignBlock b cs).2.length =
    stmtCommentCount (.block b) + cs.length := by
  simp only [preAssignBlock, stmtCommentCount, GComments.count]
  have h1 := takeBefore_length b.start.off cs
  have h2 := takeBefore_length b.lparen.pos.off (takeBefore b.start.off cs).2
  have h3 := preAssignLines_count b.line
    (takeBefore b.lparen.pos.off (takeBefore b.start.off cs).2).2
  have h4 := takeBefore_length b.rparen.pos.off
    (preAssignLines b.line
      (takeBefore b.lparen.pos.off (takeBefore b.start.off cs).2).2).2
  simp only [GComments.count, List.length_append] at h1 h2 h3 h4 ⊢
  omega

theorem preAssignStmt_count (s : GStmt) (cs : List GComment) :
    stmtCommentCount (preAssignStmt s cs).1 + (preAssignStmt s cs).2.length =
      stmtCommentCount s + cs.length := by
  cases s with
  | line l =>
    have h := preAssignLine_count l cs
    simp only [preAssignStmt, stmtCommentCount]
    exact h
  | block b => exact preAssignBlock_count b cs
  | comments c =>
    have h := takeBefore_length c.start.off cs
    simp only [preAssignStmt, stmtCommentCount, GComments.count,
      List.length_append]
    omega

theorem preAssignStmts_count (ss : List GStmt) (cs : List GComment) :
    ((preAssignStmts ss cs).1.map stmtCommentCount).sum +
      (preAssignStmts ss cs).2.length =
    (ss.map stmtCommentCount).sum + cs.length := by
  induction ss generalizing cs with
  | nil => simp [preAssignStmts]
  | cons s ss ih =>
    simp only [preAssignStmts, List.map_cons, List.sum_cons]
    have h1 := preAssignStmt_count s cs
    have h2 := ih (preAssignStmt s cs).2
    omega

theorem postAssignLine_count (l : GLine) (srev : List GComment) :
    (postAssignLine l srev).1.comments.count +
      (postAssignLine l srev).2.length = l.comments.count + srev.length := by
  have h := suffixFor_length l.start l.endPos srev
  simp only [postAssignLine, GComments.count, List.length_append]
  omega

theorem postAssignLinesRev_count (ls : List GLine) (srev : List GComment) :
    ((postAssignLinesRev ls srev).1.map (fun l => l.comments.count)).sum +
      (postAssignLinesRev ls srev).2.length =
    (ls.map (fun l => l.comments.count)).sum + srev.length := by
  induction ls generalizing srev with
  | nil => simp [postAssignLinesRev]
  | cons l ls ih =>
    simp only [postAssignLinesRev, List.map_cons, List.sum_cons]
    have h1 := ih srev
    have h2 := postAssignLine_count l (postAssignLinesRev ls srev).2
    omega

theorem postAssignBlock_count (b : GLineBlock) (srev : List GComment) :
    stmtCommentCount (.block (postAssignBlock b srev).1) +
      (postAssignBlock b srev).2.length =
    stmtCommentCount (.block b) + srev.length := by
  simp only [postAssignBlock, stmtCommentCount, GComments.count]
  have h1 := suffixFor_length b.start (posAfterRune b.rparen.pos) srev
  have h2 := suffixFor_length b.rparen.pos (posAfterRune b.rparen.pos)
    (suffixFor b.start (posAfterRune b.rparen.pos) srev).2
  have h3 := postAssignLinesRev_count b.line
    (suffixFor b.rparen.pos (posAfterRune b.rparen.pos)
      (suffixFor b.start (posAfterRune b.rparen.pos) srev).2).2
  have h4 := suffixFor_length b.lparen.pos (posAfterRune b.lparen.pos)
    (postAssignLinesRev b.line
      (suffixFor b.rparen.pos (posAfterRune b.rparen.pos)
        (suffixFor b.start (posAfterRune b.rparen.pos) srev).2).2).2
  simp only [GComments.count, List.length_append] at h1 h2 h3 h4 ⊢
  omega

theorem postAssignStmt_count (s : GStmt) (srev : List GComment) :
    stmtCommentCount (postAssignStmt s srev).1 +
      (postAssignStmt s srev).2.length = stmtCommentCount s + srev.length := by
  cases s with
  | line l =>
    have h := postAssignLine_count l srev
    simp only [postAssignStmt, stmtCommentCount]
    exact h
  | block b => exact postAssignBlock_count b srev
  | comments c =>
    have h := suffixFor_length c.start c.start srev
    simp only [postAssignStmt, stmtCommentCount, GComments.count,
      List.length_append]
    omega

theorem postAssignStmtsRev_count (ss : List GStmt) (srev : List GComment) :
    ((postAssignStmtsRev ss srev).1.map stmtCommentCount).sum +
      (postAssignStmtsRev ss srev).2.length =
    (ss.map stmtCommentCount).sum + srev.length := by
  induction ss generalizing srev with
  | nil => simp [postAssignStmtsRev]
  | cons s ss ih =>
    simp only [postAssignStmtsRev, List.map_cons, List.sum_cons]
    have h1 := ih srev
    have h2 := postAssignStmt_count s (postAssignStmtsRev ss srev).2
    omega

theorem reverseSuffixes_count (s : GStmt) :
    stmtCommentCount (reverseSuffixes s) = stmtCommentCount s := by
  cases s with
  | line l => simp [reverseSuffixes, stmtCommentCount, GComments.count,
      GComments.revSuffix]
  | block b =>
    simp only [reverseSuffixes, stmtCommentCount, GComments.count,
      GComments.revSuffix, List.length_reverse, List.map_map]
    congr 1
    refine congrArg List.sum ?_
    apply List.map_congr_left
    intro l _
    simp
  | comments c => simp [reverseSuffixes, stmtCommentCount, GComments.count,
      GComments.revSuffix]

theorem filter_suffix_partition (cms : List GComment) :
    (cms.filter (fun c => c.suffix = false)).length +
      (cms.filter (fun c => c.suffix = true)).length = cms.length := by
  induction cms with
  | nil => rfl
  | cons c cs ih =>
    cases hc : c.suffix with
    | false =>
      simp only [List.filter_cons, hc]
      simp
      simp at ih
      omega
    | true =>
      simp only [List.filter_cons, hc]
      simp
      simp at ih
      omega

/-- C4 (amended): `assignComments` conserves comments — every comment
given to it is attached to exactly one place (a node's before/suffix list
or the file's before/after list) and none already attached is dropped:
the total number of attached comments grows by exactly the number of
comments handed over.  (The full-pipeline equality of the original claim
fails because the parser itself fabricates empty placeholder comments for
blank lines inside blocks; see the counterexample.) -/
theorem assignComments_conserves (f : GFileSyntax) (cms : List GComment) :
    fileCommentCount (assignComments f cms) =
      fileCommentCount f + cms.length := by
  simp only [assignComments, fileCommentCount, GComments.count,
    List.map_map]
  have hpart := filter_suffix_partition cms
  have hF := takeBefore_length (fileSpan f).1.off
    (cms.filter (fun c => c.suffix = false))
  have hPre := preAssignStmts_count f.stmt
    (takeBefore (fileSpan f).1.off (cms.filter (fun c => c.suffix = false))).2
  have hPost := postAssignStmtsRev_count
    (preAssignStmts f.stmt
      (takeBefore (fileSpan f).1.off
        (cms.filter (fun c => c.suffix = false))).2).1
    (cms.filter (fun c => c.suffix = true)).reverse
  have hRev : ((postAssignStmtsRev
      (preAssignStmts f.stmt
        (takeBefore (fileSpan f).1.off
          (cms.filter (fun c => c.suffix = false))).2).1
      (cms.filter (fun c => c.suffix = true)).reverse).1.map
        (stmtCommentCount ∘ reverseSuffixes)).sum =
      ((postAssignStmtsRev
        (preAssignStmts f.stmt
          (takeBefore (fileSpan f).1.off
            (cms.filter (fun c => c.suffix = false))).2).1
        (cms.filter (fun c => c.suffix = true)).reverse).1.map
          stmtCommentCount).sum := by
    refine congrArg List.sum ?_
    apply List.map_congr_left
    intro s _
    exact reverseSuffixes_count s
  simp only [List.length_append, List.length_reverse] at *
  omega

unseal tokenizeLoop parseLineBlockLoop parseFileLoop in
/-- C4 (counterexample): a block with one blank line between its entries:
the lexer recovers no comment tokens at all, yet after parsing and comment
assignment one (placeholder) comment is attached to the tree — the claimed
equality of lexed and attached comment counts fails. -/
theorem comment_conservation_pipeline_fails :
    (tokenize "f" "require (\n\ta v1.0.0\n\n\tb v2.0.0\n)\n".data).map
      (fun r => (r.1.filter (fun t => t.kind.isComment)).length) = .ok 0 ∧
    (parse "f" "require (\n\ta v1.0.0\n\n\tb v2.0.0\n)\n".data).map
      fileCommentCount = .ok 1 :=
  ⟨rfl, rfl⟩

/-! ### C9 — `mod why` stanzas -/

/-- Whether a directory entry takes part in the import map. -/
def gnoFileKept (filename : String) : Prop :=
  filepathExt filename = ".gno" ∧ ¬ strEndsWith filename "_filetest.gno" = true

instance (filename : String) : Decidable (gnoFileKept filename) := by
  unfold gnoFileKept
  infer_instance

theorem find?_map_keyInv (m : List (String × List String))
    (g : String × List String → String × List String)
    (hg : ∀ p, (g p).1 = p.1) (arg : String) :
    (m.map g).find? (fun p => p.1 = arg) =
      (m.find? (fun p => p.1 = arg)).map g := by
  induction m with
  | nil => simp
  | cons p ps ih =>
    by_cases hp : p.1 = arg
    · simp [List.find?_cons, hg p, hp]
    · simp [List.find?_cons, hg p, hp, ih]

theorem lookupMap_mapAppend (m : List (String × List String))
    (k v arg : String) :
    lookupMap (mapAppend m k v) arg =
      if arg = k then some ((lookupMap m arg).getD [] ++ [v])
      else lookupMap m arg := by
  simp only [mapAppend]
  cases hf : m.find? (fun p => p.1 = k) with
  | some e =>
    simp only [lookupMap]
    rw [find?_map_keyInv m _ (fun p => by by_cases h : p.1 = k <;> simp [h])
      arg]
    by_cases ha : arg = k
    · subst ha
      rw [hf]
      have he : e.1 = arg := by
        have := List.find?_some hf
        simpa using this
      simp [he]
    · rw [if_neg ha]
      cases hfa : m.find? (fun p => p.1 = arg) with
      | none => simp
      | some e2 =>
        have he2 : e2.1 = arg := by
          have := List.find?_some hfa
          simpa using this
        simp [he2, ha]
  | none =>
    simp only [lookupMap, List.find?_append]
    by_cases ha : arg = k
    · subst ha
      rw [hf]
      simp [List.find?_cons]
    · cases hfa : m.find? (fun p => p.1 = arg) with
      | none =>
        simp only [hfa, Option.none_or]
        rw [if_neg ha]
        simp [List.find?_cons, Ne.symm ha]
      | some e2 =>
        simp [hfa, ha]

theorem lookupMap_foldl_mapAppend (imports : List String)
    (m : List (String × List String)) (filename arg : String)
    (hnd : imports.Nodup) :
    lookupMap (imports.foldl (fun acc imp => mapAppend acc imp filename) m)
        arg =
      if arg ∈ imports then some ((lookupMap m arg).getD [] ++ [filename])
      else lookupMap m arg := by
  induction imports generalizing m with
  | nil => simp
  | cons i rest ih =>
    simp only [List.foldl_cons]
    have hndr : rest.Nodup := hnd.of_cons
    by_cases ha : arg = i
    · subst ha
      have hni : arg ∉ rest := (List.nodup_cons.mp hnd).1
      rw [ih (mapAppend m arg filename) hndr, if_neg hni,
        lookupMap_mapAppend, if_pos rfl]
      simp
    · rw [ih (mapAppend m i filename) hndr, lookupMap_mapAppend m i filename,
        if_neg ha]
      by_cases hm : arg ∈ rest
      · simp [hm, ha]
      · simp [hm, ha]

theorem lookupMap_getImportToFilesMapLoop
    (listing : List (String × List String))
    (m : List (String × List String)) (arg : String)
    (hnd : ∀ p ∈ listing, p.2.Nodup) :
    lookupMap (getImportToFilesMapLoop m listing) arg =
      (match lookupMap m arg with
       | some v => some (v ++
          ((listing.filter
            (fun p => gnoFileKept p.1 ∧ arg ∈ p.2)).map (·.1)))
       | none =>
          match (listing.filter
            (fun p => gnoFileKept p.1 ∧ arg ∈ p.2)).map (·.1) with
          | [] => none
          | fs => some fs) := by
  induction listing generalizing m with
  | nil =>
    simp only [getImportToFilesMapLoop, List.filter_nil, List.map_nil]
    cases lookupMap m arg <;> simp
  | cons p ps ih =>
    obtain ⟨filename, imports⟩ := p
    have hnd1 : imports.Nodup := hnd _ (List.mem_cons_self _ _)
    have hndr : ∀ q ∈ ps, q.2.Nodup := fun q hq => hnd q (List.mem_cons_of_mem _ hq)
    simp only [getImportToFilesMapLoop]
    by_cases hext : filepathExt filename ≠ ".gno"
    · rw [if_pos hext, ih m hndr]
      have : ¬ (gnoFileKept filename ∧ arg ∈ imports) := by
        intro ⟨⟨h1, _⟩, _⟩
        exact hext h1
      rw [List.filter_cons_of_neg (by simpa using this)]
    · rw [if_neg hext]
      push_neg at hext
      by_cases hft : strEndsWith filename "_filetest.gno" = true
      · rw [if_pos hft, ih m hndr]
        have : ¬ (gnoFileKept filename ∧ arg ∈ imports) := by
          intro ⟨⟨_, h2⟩, _⟩
          exact h2 hft
        rw [List.filter_cons_of_neg (by simpa using this)]
      · rw [if_neg hft,
          ih (imports.foldl (fun acc imp => mapAppend acc imp filename) m)
            hndr,
          lookupMap_foldl_mapAppend imports m filename arg hnd1]
        have hkept : gnoFileKept filename := ⟨hext, hft⟩
        by_cases hmem : arg ∈ imports
        · rw [if_pos hmem,
            List.filter_cons_of_pos (by simp [hkept, hmem])]
          cases hm : lookupMap m arg <;> simp
        · rw [if_neg hmem,
            List.filter_cons_of_neg (by simp [hkept, hmem])]

theorem lookupMap_getImportToFilesMap (listing : List (String × List String))
    (arg : String) (hnd : ∀ p ∈ listing, p.2.Nodup) :
    lookupMap (getImportToFilesMap listing) arg =
      (match (listing.filter
          (fun p => gnoFileKept p.1 ∧ arg ∈ p.2)).map (·.1) with
       | [] => none
       | fs => some fs) := by
  rw [getImportToFilesMap,
    lookupMap_getImportToFilesMapLoop listing [] arg hnd]
  rfl

/-- C9: a `mod why` stanza for one requested import path: files whose
extension is not `.gno` and `_filetest.gno` files are excluded from
the import map (plain `_test.gno` files pass the filter); when no kept
file imports the argument the stanza carries the single parenthesized
"module … does not need package …" marker, and otherwise it lists
the importing filenames one per line in first-seen (directory) order. -/
theorem modWhy_stanza_spec (mp arg : String)
    (listing : List (String × List String))
    (hnd : ∀ p ∈ listing, p.2.Nodup) :
    formatModWhyStanzas mp [arg] (getImportToFilesMap listing) =
      "# " ++ arg ++ "\n" ++
      (match (listing.filter
          (fun p => gnoFileKept p.1 ∧ arg ∈ p.2)).map (·.1) with
       | [] => "(module " ++ mp ++ " does not need package " ++ arg ++ ")\n"
       | fs => String.join (fs.map (fun file => file ++ "\n"))) := by
  simp only [formatModWhyStanzas, formatModWhyLoop, modWhyBody,
    List.length_cons, List.length_nil]
  rw [lookupMap_getImportToFilesMap listing arg hnd]
  cases hfs : (listing.filter
      (fun p => gnoFileKept p.1 ∧ arg ∈ p.2)).map (·.1) with
  | nil => simp
  | cons f fs => simp

/-- C9 (witness): the stanza theorem applied to a concrete directory
listing: `b.gno` and `x_test.gno` are kept, `a_filetest.gno` and `c.txt`
are excluded. -/
theorem modWhy_stanza_spec_witness :
    formatModWhyStanzas "m" ["p"]
      (getImportToFilesMap
        [("b.gno", ["p", "q"]), ("a_filetest.gno", ["p"]),
         ("c.txt", ["p"]), ("x_test.gno", ["p"])]) =
      "# p\n" ++
        String.join (["b.gno", "x_test.gno"].map (fun file => file ++ "\n")) := by
  rw [modWhy_stanza_spec "m" "p"
    [("b.gno", ["p", "q"]), ("a_filetest.gno", ["p"]),
     ("c.txt", ["p"]), ("x_test.gno", ["p"])] (by decide)]
  rfl

/-! ### C10 — ModulePath -/

theorem head?_dropWhile_not (p : Char → Bool) (l : List Char) (c : Char)
    (h : (l.dropWhile p).head? = some c) : ¬ p c := by
  induction l with
  | nil => simp [List.dropWhile] at h
  | cons d ds ih =>
    rw [List.dropWhile_cons] at h
    split at h
    · exact ih h
    · rename_i hd
      simp only [List.head?_cons, Option.some.injEq] at h
      subst h
      exact hd

theorem dropWhile_eq_self_of_head (p : Char → Bool) (l : List Char)
    (h : ∀ c, l.head? = some c → ¬ p c) : l.dropWhile p = l := by
  cases l with
  | nil => rfl
  | cons d ds =>
    rw [List.dropWhile_cons, if_neg (by simpa using h d rfl)]

theorem trimSpaceL_getLast (s : List Char) (c : Char)
    (h : (trimSpaceL s).getLast? = some c) : ¬ isGoSpace c := by
  simp only [trimSpaceL] at h
  rw [List.getLast?_reverse] at h
  exact head?_dropWhile_not _ _ _ h

theorem trimSpaceL_eq_dropWhile (s : List Char)
    (h : ∀ c, s.getLast? = some c → ¬ isGoSpace c) :
    trimSpaceL s = s.dropWhile isGoSpace := by
  simp only [trimSpaceL]
  have hlast : ∀ c, (s.dropWhile isGoSpace).getLast? = some c →
      ¬ isGoSpace c := by
    intro c hc
    obtain ⟨t, ht⟩ := List.dropWhile_suffix (l := s) isGoSpace
    apply h
    rw [← ht, List.getLast?_append_of_ne_nil]
    · exact hc
    · intro he
      rw [he] at hc
      simp at hc
  rw [dropWhile_eq_self_of_head isGoSpace (s.dropWhile isGoSpace).reverse
    (by
      intro c hc
      rw [List.head?_reverse] at hc
      exact hlast c hc), List.reverse_reverse]

theorem getLast?_drop_of_ne_nil (s : List Char) (k : Nat)
    (h : s.drop k ≠ []) : (s.drop k).getLast? = s.getLast? := by
  conv_rhs => rw [← List.take_append_drop k s]
  rw [List.getLast?_append_of_ne_nil _ h]

/-- Split the input into lines the way the `ModulePath` loop does: one
segment per `\n`, the last line needing no terminator. -/
def splitLines : List Char → List (List Char)
  | [] => []
  | c :: cs =>
    ((c :: cs).takeWhile (· ≠ '\n')) ::
      splitLines (((c :: cs).dropWhile (· ≠ '\n')).drop 1)
termination_by mod => mod.length
decreasing_by exact dropNlLt _ _

/-- C10, specification side: a line yields a module path argument exactly
when — after stripping any `//` comment and surrounding space — it is the
word `module` followed by whitespace and a non-empty argument. -/
def specModuleArg (line : List Char) : Option (List Char) :=
  let l2 := trimSpaceL (stripLineComment line)
  let arg0 := l2.drop 6
  if l2.take 6 = "module".data ∧ arg0.head?.any isGoSpace = true ∧
      trimSpaceL arg0 ≠ [] then
    some (trimSpaceL arg0)
  else none

/-- The processing the claim describes for the found argument: unquote a
`"`- or backquote-quoted argument (malformed quoting gives `""`),
otherwise return it as is. -/
def specProcessArg (arg : List Char) : String :=
  if arg.head? = some '"' ∨ arg.head? = some '`' then
    match goUnquote (String.mk arg) with
    | none => ""
    | some p => p
  else String.mk arg

/-- C10, specification side: the argument of the first line that yields
one — unquoting a quoted argument, with `""` for a malformed quote — and
`""` when no line qualifies. -/
def specModulePath (mod : List Char) : String :=
  match (splitLines mod).findSome? specModuleArg with
  | none => ""
  | some arg => specProcessArg arg

/-- The length-based skip test of the source coincides with the claim's
"module followed by whitespace and a non-empty argument" reading. -/
theorem specModuleArg_eq_source (line : List Char) :
    specModuleArg line =
      (let l2 := trimSpaceL (stripLineComment line)
       let arg0 := l2.drop 6
       let arg := trimSpaceL arg0
       if l2.take 6 = "module".data ∧
           ¬ (arg.length = arg0.length ∨ arg.length = 0) then some arg
       else none) := by
  simp only [specModuleArg]
  by_cases h6 : (trimSpaceL (stripLineComment line)).take 6 = "module".data
  case neg =>
    rw [if_neg (by tauto), if_neg (by tauto)]
  case pos =>
    have hnotrail : ∀ c,
        ((trimSpaceL (stripLineComment line)).drop 6).getLast? = some c →
        ¬ isGoSpace c := by
      intro c hc
      have hne : (trimSpaceL (stripLineComment line)).drop 6 ≠ [] := by
        intro he
        rw [he] at hc
        simp at hc
      rw [getLast?_drop_of_ne_nil _ _ hne] at hc
      exact trimSpaceL_getLast _ _ hc
    have harg_eq : trimSpaceL ((trimSpaceL (stripLineComment line)).drop 6) =
        ((trimSpaceL (stripLineComment line)).drop 6).dropWhile isGoSpace :=
      trimSpaceL_eq_dropWhile _ hnotrail
    have hiff :
        (((trimSpaceL (stripLineComment line)).drop 6).head?.any isGoSpace
            = true ∧
          trimSpaceL ((trimSpaceL (stripLineComment line)).drop 6) ≠ []) ↔
        ¬ ((trimSpaceL ((trimSpaceL (stripLineComment line)).drop 6)).length
              = ((trimSpaceL (stripLineComment line)).drop 6).length ∨
            (trimSpaceL ((trimSpaceL (stripLineComment line)).drop 6)).length
              = 0) := by
      cases ha0 : (trimSpaceL (stripLineComment line)).drop 6 with
      | nil =>
        rw [ha0] at harg_eq
        simp [harg_eq, List.dropWhile]
      | cons c rest =>
        rw [ha0] at harg_eq
        rw [harg_eq]
        constructor
        · rintro ⟨hhead, hne⟩
          simp only [List.head?_cons, Option.any_some] at hhead
          rw [List.dropWhile_cons, if_pos hhead] at hne ⊢
          have hle := List.length_le_of_sublist
            (List.dropWhile_sublist (l := rest) isGoSpace)
          push_neg
          constructor
          · intro heq
            simp only [List.length_cons] at heq
            omega
          · intro heq
            rw [List.length_eq_zero] at heq
            exact hne heq
        · intro hcon
          push_neg at hcon
          obtain ⟨hlen, hzero⟩ := hcon
          constructor
          · by_contra hhead
            simp only [List.head?_cons, Option.any_some,
              Bool.not_eq_true] at hhead
            rw [List.dropWhile_cons, if_neg (by simp [hhead])] at hlen
            exact hlen rfl
          · intro he
            rw [he] at hzero
            simp at hzero
    have hcond :
        ((trimSpaceL (stripLineComment line)).take 6 = "module".data ∧
          ((trimSpaceL (stripLineComment line)).drop 6).head?.any isGoSpace
            = true ∧
          trimSpaceL ((trimSpaceL (stripLineComment line)).drop 6) ≠ []) ↔
        ((trimSpaceL (stripLineComment line)).take 6 = "module".data ∧
          ¬ ((trimSpaceL ((trimSpaceL (stripLineComment line)).drop 6)).length
                = ((trimSpaceL (stripLineComment line)).drop 6).length ∨
              (trimSpaceL ((trimSpaceL (stripLineComment line)).drop 6)).length
                = 0)) := by
      constructor
      · rintro ⟨hA, hB⟩
        exact ⟨hA, hiff.mp hB⟩
      · rintro ⟨hA, hC⟩
        exact ⟨hA, hiff.mpr hC⟩
    rw [if_congr hcond rfl rfl]

theorem specModulePath_cons (d : Char) (ds : List Char) :
    specModulePath (d :: ds) =
      (match specModuleArg ((d :: ds).takeWhile (· ≠ '\n')) with
       | some arg => specProcessArg arg
       | none => specModulePath (((d :: ds).dropWhile (· ≠ '\n')).drop 1)) := by
  rw [specModulePath]
  simp only [splitLines, List.findSome?_cons]
  cases specModuleArg ((d :: ds).takeWhile (· ≠ '\n')) with
  | some arg => rfl
  | none => rw [specModulePath]

theorem modulePathLoop_cons_eq (d : Char) (ds : List Char)
    (hrest : modulePathLoop (((d :: ds).dropWhile (· ≠ '\n')).drop 1) =
      specModulePath (((d :: ds).dropWhile (· ≠ '\n')).drop 1)) :
    modulePathLoop (d :: ds) = specModulePath (d :: ds) := by
  rw [specModulePath_cons, specModuleArg_eq_source]
  simp only [modulePathLoop]
  split
  · rename_i h6
    split
    · rename_i hskip
      rw [if_neg (fun hc => hc.2 hskip)]
      exact hrest
    · rename_i hskip
      rw [if_pos (And.intro h6 hskip)]
      rfl
  · rename_i h6
    rw [if_neg (fun hc => h6 hc.1)]
    exact hrest

/-- C10: `ModulePath` computes exactly what the claim describes: the
argument of the first line that, after dropping any `//` comment and
surrounding whitespace, is the word `module` followed by whitespace and a
non-empty argument — unquoting a `"`- or backquote-quoted argument — and
the empty string (never an error or panic) when no such line exists or
the quoted argument is malformed. -/
theorem ModulePath_eq_spec (mod : List Char) :
    ModulePath mod = specModulePath mod := by
  rw [ModulePath]
  suffices h : ∀ n (mod2 : List Char), mod2.length = n →
      modulePathLoop mod2 = specModulePath mod2 from h _ mod rfl
  intro n
  induction n using Nat.strong_induction_on with
  | _ n ih =>
    intro mod2 hn
    cases mod2 with
    | nil =>
      simp only [modulePathLoop, specModulePath, splitLines,
        List.findSome?_nil]
    | cons d ds =>
      refine modulePathLoop_cons_eq d ds ?_
      have hlt : (((d :: ds).dropWhile (· ≠ '\n')).drop 1).length < n := by
        rw [← hn]
        exact dropNlLt d ds
      exact ih _ hlt _ rfl
/-! ### C2, C3, C7 — addReplace -/

theorem addReplaceLoop_length (p v : String) (nv : ModVer)
    (tk : List String) (rs : List GReplace) (x : GFileSyntax) (need : Bool)
    (hint : Option Nat) :
    (addReplaceLoop p v nv tk rs x need hint).1.length = rs.length := by
  induction rs generalizing x need hint with
  | nil => rfl
  | cons r rs ih =>
    simp only [addReplaceLoop]
    split
    · split
      · simp only [List.length_cons, ih]
      · simp only [List.length_cons, ih]
    · simp only [List.length_cons, ih]

theorem addReplaceLoop_need (p v : String) (nv : ModVer) (tk : List String)
    (rs : List GReplace) (x : GFileSyntax) (need : Bool)
    (hint : Option Nat) :
    (addReplaceLoop p v nv tk rs x need hint).2.2.1 =
      (need && !(rs.any (fun r => decide (matchesOld p v r)))) := by
  induction rs generalizing x need hint with
  | nil => cases need <;> rfl
  | cons r rs ih =>
    simp only [addReplaceLoop, List.any_cons]
    split
    · rename_i hm
      have hm2 : decide (matchesOld p v r) = true := by
        simp [matchesOld]
        exact hm
      split
      · rename_i hneed
        rw [ih]
        simp [hm2]
      · rename_i hneed
        rw [ih]
        simp only [Bool.not_eq_true] at hneed
        simp [hm2, hneed]
    · rename_i hm
      have hm2 : decide (matchesOld p v r) = false := by
        simp only [decide_eq_false_iff_not]
        exact hm
      rw [ih]
      simp [hm2]

theorem addReplaceLoop_countP (p v : String) (nv : ModVer)
    (tk : List String) (rs : List GReplace) (x : GFileSyntax) (need : Bool)
    (hint : Option Nat) (hp : p ≠ "") :
    (addReplaceLoop p v nv tk rs x need hint).1.countP
        (fun r => decide (matchesOld p v r)) =
      if need then min 1 (rs.countP (fun r => decide (matchesOld p v r)))
      else 0 := by
  induction rs generalizing x need hint with
  | nil => cases need <;> simp [addReplaceLoop]
  | cons r rs ih =>
    simp only [addReplaceLoop]
    split
    · rename_i hm
      have hm2 : decide (matchesOld p v r) = true := by
        simp [matchesOld]
        exact hm
      split
      · rename_i hneed
        have hupd : decide (matchesOld p v { r with new := nv }) = true := by
          simp [matchesOld]
          exact hm
        simp only [List.countP_cons, hupd, hm2, if_pos]
        rw [ih]
        simp [hneed]
      · rename_i hneed
        have hzero : decide (matchesOld p v
            (⟨⟨"", ""⟩, ⟨"", ""⟩, none⟩ : GReplace)) = false := by
          simp [matchesOld]
          intro h
          exact absurd h.symm hp
        simp only [List.countP_cons, hzero]
        rw [ih]
        simp only [Bool.not_eq_true] at hneed
        simp [hneed]
    · rename_i hm
      have hm2 : decide (matchesOld p v r) = false := by
        simp only [decide_eq_false_iff_not]
        exact hm
      simp only [List.countP_cons, hm2]
      rw [ih]
      simp

theorem addReplaceLoop_preserves (p v : String) (nv : ModVer)
    (tk : List String) (rs : List GReplace) (x : GFileSyntax) (need : Bool)
    (hint : Option Nat) (r : GReplace) (hr : r ∈ rs)
    (hnm : ¬ matchesOld p v r) :
    r ∈ (addReplaceLoop p v nv tk rs x need hint).1 := by
  induction rs generalizing x need hint with
  | nil => cases hr
  | cons a rs ih =>
    simp only [addReplaceLoop]
    rcases List.mem_cons.mp hr with heq | hmem
    · subst heq
      split
      · rename_i hm
        exact absurd hm hnm
      · exact List.mem_cons_self _ _
    · split
      · split
        · exact List.mem_cons_of_mem _ (ih _ _ _ hmem)
        · exact List.mem_cons_of_mem _ (ih _ _ _ hmem)
      · exact List.mem_cons_of_mem _ (ih _ _ _ hmem)

theorem addReplace_countP (st : EditState) (p v np nvs : String)
    (hp : p ≠ "") :
    (addReplace st p v np nvs).replace.countP
        (fun r => decide (matchesOld p v r)) = 1 := by
  simp only [addReplace]
  generalize (["replace", autoQuote p] ++ (if v ≠ "" then [v] else []) ++
      ["=>", autoQuote np] ++ (if nvs ≠ "" then [nvs] else [])) = tk
  split
  · rename_i hneed
    rw [addReplaceLoop_need] at hneed
    simp only [Bool.true_and, Bool.not_eq_true'] at hneed
    rw [List.countP_append, addReplaceLoop_countP _ _ _ _ _ _ _ _ hp]
    have h0 : st.replace.countP (fun r => decide (matchesOld p v r)) = 0 := by
      rw [List.countP_eq_zero]
      intro a ha
      have := (List.any_eq_false (l := st.replace)).mp hneed a ha
      simpa using this
    rw [h0]
    simp [matchesOld]
  · rename_i hneed
    rw [addReplaceLoop_need] at hneed
    simp only [Bool.true_and, Bool.not_eq_true'] at hneed
    rw [addReplaceLoop_countP _ _ _ _ _ _ _ _ hp]
    have hpos : 0 < st.replace.countP (fun r => decide (matchesOld p v r)) := by
      have hany : st.replace.any (fun r => decide (matchesOld p v r)) = true := by
        cases hx : st.replace.any (fun r => decide (matchesOld p v r)) with
        | true => rfl
        | false => exact absurd hx hneed
      rcases List.any_eq_true.mp hany with ⟨a, ha, hma⟩
      exact List.countP_pos.mpr ⟨a, ha, hma⟩
    rw [if_pos rfl]
    exact Nat.min_eq_left hpos

/-- C3: `addReplace` is idempotent in the claim's sense: after one call
there is exactly one replace entry matching the old coordinate, and a
second call with identical arguments leaves again exactly one and appends
no entry (the slice keeps its length, so no duplicate line is created). -/
theorem addReplace_idempotent (st : EditState)
    (oldPath oldVers newPath newVers : String) (hp : oldPath ≠ "") :
    ((addReplace st oldPath oldVers newPath newVers).replace.countP
        (fun r => decide (matchesOld oldPath oldVers r)) = 1) ∧
    ((addReplace (addReplace st oldPath oldVers newPath newVers)
        oldPath oldVers newPath newVers).replace.countP
        (fun r => decide (matchesOld oldPath oldVers r)) = 1) ∧
    (addReplace (addReplace st oldPath oldVers newPath newVers)
        oldPath oldVers newPath newVers).replace.length =
      (addReplace st oldPath oldVers newPath newVers).replace.length := by
  refine ⟨addReplace_countP _ _ _ _ _ hp, addReplace_countP _ _ _ _ _ hp, ?_⟩
  have h1 := addReplace_countP st oldPath oldVers newPath newVers hp
  generalize hst1 : addReplace st oldPath oldVers newPath newVers = st1 at *
  conv_lhs => rw [addReplace]
  generalize (["replace", autoQuote oldPath] ++
      (if oldVers ≠ "" then [oldVers] else []) ++
      ["=>", autoQuote newPath] ++
      (if newVers ≠ "" then [newVers] else [])) = tk
  split
  · rename_i hneed
    rw [addReplaceLoop_need] at hneed
    simp only [Bool.true_and, Bool.not_eq_true'] at hneed
    have h0 : st1.replace.countP
        (fun r => decide (matchesOld oldPath oldVers r)) = 0 := by
      rw [List.countP_eq_zero]
      intro a ha
      have := (List.any_eq_false (l := st1.replace)).mp hneed a ha
      simpa using this
    rw [h0] at h1
    cases h1
  · exact addReplaceLoop_length _ _ _ _ _ _ _ _

/-- C3 (witness): the idempotence theorem applied to the empty manifest
state and the request to replace "p" by "q" at version "v1.0.0". -/
theorem addReplace_idempotent_witness :
    ("p" : String) ≠ "" ∧
    (((addReplace ⟨⟨"gno.mod", GComments.empty, []⟩, []⟩
        "p" "" "q" "v1.0.0").replace.countP
        (fun r => decide (matchesOld "p" "" r)) = 1) ∧
    ((addReplace (addReplace ⟨⟨"gno.mod", GComments.empty, []⟩, []⟩
        "p" "" "q" "v1.0.0") "p" "" "q" "v1.0.0").replace.countP
        (fun r => decide (matchesOld "p" "" r)) = 1) ∧
    (addReplace (addReplace ⟨⟨"gno.mod", GComments.empty, []⟩, []⟩
        "p" "" "q" "v1.0.0") "p" "" "q" "v1.0.0").replace.length =
      (addReplace ⟨⟨"gno.mod", GComments.empty, []⟩, []⟩
        "p" "" "q" "v1.0.0").replace.length) :=
  ⟨by decide,
   addReplace_idempotent ⟨⟨"gno.mod", GComments.empty, []⟩, []⟩
     "p" "" "q" "v1.0.0" (by decide)⟩

/-- C2 (counterexample): a manifest with a wildcard replace entry for
path "p" (old version "") whose line is statement id 2; after
`addReplace "p" "v1.2.3" "q" "v1.0.0"` the wildcard entry is *not*
cleared: it survives unchanged next to the newly appended entry, so the
claim's "every other entry for path P has its line's tokens cleared" is
false. -/
theorem addReplace_wildcard_not_cleared :
    (addReplace
        ⟨⟨"gno.mod", GComments.empty,
          [.line ⟨GComments.empty, ⟨0, 0, 0⟩,
            ["replace", "p", "=>", "../x"], false, ⟨0, 0, 0⟩, 2⟩]⟩,
         [⟨⟨"p", ""⟩, ⟨"../x", ""⟩, some 2⟩]⟩
        "p" "v1.2.3" "q" "v1.0.0").replace =
      [⟨⟨"p", ""⟩, ⟨"../x", ""⟩, some 2⟩,
       ⟨⟨"p", "v1.2.3"⟩, ⟨"q", "v1.0.0"⟩, some 3⟩] := by
  rfl

/-- C2 (amended): after `addReplace oldPath oldVers newPath newVers`
there is exactly one replace entry matching `(oldPath, oldVers)`, but
entries for the same path that do not match — in particular a wildcard
entry with old version "" when `oldVers ≠ ""` — are *kept unchanged* in
the slice, not cleared. -/
theorem addReplace_nonmatching_preserved (st : EditState)
    (oldPath oldVers newPath newVers : String) (hp : oldPath ≠ "") :
    ((addReplace st oldPath oldVers newPath newVers).replace.countP
        (fun r => decide (matchesOld oldPath oldVers r)) = 1) ∧
    (∀ r ∈ st.replace, ¬ matchesOld oldPath oldVers r →
      r ∈ (addReplace st oldPath oldVers newPath newVers).replace) := by
  refine ⟨addReplace_countP _ _ _ _ _ hp, ?_⟩
  intro r hr hnm
  simp only [addReplace]
  generalize (["replace", autoQuote oldPath] ++
      (if oldVers ≠ "" then [oldVers] else []) ++
      ["=>", autoQuote newPath] ++
      (if newVers ≠ "" then [newVers] else [])) = tk
  split
  · exact List.mem_append_left _
      (addReplaceLoop_preserves _ _ _ _ _ _ _ _ r hr hnm)
  · exact addReplaceLoop_preserves _ _ _ _ _ _ _ _ r hr hnm

/-- C2 (witness): the amended theorem applied to the wildcard manifest of
the counterexample: exactly one entry matches ("p", "v1.2.3") and the
wildcard entry, which does not match, is still a member of the slice. -/
theorem addReplace_nonmatching_preserved_witness :
    ("p" : String) ≠ "" ∧
    (((addReplace
        ⟨⟨"gno.mod", GComments.empty,
          [.line ⟨GComments.empty, ⟨0, 0, 0⟩,
            ["replace", "p", "=>", "../x"], false, ⟨0, 0, 0⟩, 2⟩]⟩,
         [⟨⟨"p", ""⟩, ⟨"../x", ""⟩, some 2⟩]⟩
        "p" "v1.2.3" "q" "v1.0.0").replace.countP
        (fun r => decide (matchesOld "p" "v1.2.3" r)) = 1) ∧
    (∀ r ∈ ([⟨⟨"p", ""⟩, ⟨"../x", ""⟩, some 2⟩] : List GReplace),
      ¬ matchesOld "p" "v1.2.3" r →
      r ∈ (addReplace
        ⟨⟨"gno.mod", GComments.empty,
          [.line ⟨GComments.empty, ⟨0, 0, 0⟩,
            ["replace", "p", "=>", "../x"], false, ⟨0, 0, 0⟩, 2⟩]⟩,
         [⟨⟨"p", ""⟩, ⟨"../x", ""⟩, some 2⟩]⟩
        "p" "v1.2.3" "q" "v1.0.0").replace)) :=
  ⟨by decide,
   addReplace_nonmatching_preserved
     ⟨⟨"gno.mod", GComments.empty,
       [.line ⟨GComments.empty, ⟨0, 0, 0⟩,
         ["replace", "p", "=>", "../x"], false, ⟨0, 0, 0⟩, 2⟩]⟩,
      [⟨⟨"p", ""⟩, ⟨"../x", ""⟩, some 2⟩]⟩
     "p" "v1.2.3" "q" "v1.0.0" (by decide)⟩

theorem addLine_snd (x : GFileSyntax) (hint : Option Hint)
    (tokens : List String) : (addLine x hint tokens).2 = freshId x := by
  unfold addLine
  cases hint with
  | none =>
    cases hf : findHint x.stmt (tokens.headD "") with
    | none => simp [hf]
    | some h =>
      simp only [hf]
      cases ha : applyHint (tokens.head?.getD "") tokens (freshId x)
          (freshId x + 1) x.stmt h with
      | none => simp [ha]
      | some s => simp [ha]
  | some h =>
    cases ha : applyHint (tokens.head?.getD "") tokens (freshId x)
        (freshId x + 1) x.stmt h with
    | none => simp [ha]
    | some s => simp [ha]

/-- C7 (counterexample): `addReplace` called with the malformed version
string "banana" performs the mutation and returns normally (the Go
function's only `return` is `nil`): the tree gains the new line and the
slice the new entry, refuting "fails with a structured version error
before any tree mutation". -/
theorem addReplace_malformed_version_mutates :
    addReplace ⟨⟨"gno.mod", GComments.empty, []⟩, []⟩ "p" "" "q" "banana" =
      ⟨⟨"gno.mod", GComments.empty,
        [.line (emptyLine ["replace", "p", "=>", "q", "banana"] false 1)]⟩,
       [⟨⟨"p", ""⟩, ⟨"q", "banana"⟩, some 1⟩]⟩ := by
  decide

/-- C7 (amended): `addReplace` performs no version validation at all: for
*every* version strings, well-formed or not, it returns normally and
mutates the state; on a manifest with no replace entries it appends an
entry recording the given strings verbatim. -/
theorem addReplace_no_version_validation (st : EditState)
    (oldPath oldVers newPath newVers : String) (h : st.replace = []) :
    (addReplace st oldPath oldVers newPath newVers).replace =
      [⟨⟨oldPath, oldVers⟩, ⟨newPath, newVers⟩, some (freshId st.file)⟩] := by
  obtain ⟨f, rs⟩ := st
  simp only at h
  subst h
  simp only [addReplace, addReplaceLoop, addLine_snd, List.nil_append,
    Option.map_none]
  rfl

/-- C7 (witness): the no-validation theorem applied to the empty manifest
and the malformed version "banana": the entry is appended verbatim. -/
theorem addReplace_no_version_validation_witness :
    (⟨⟨"gno.mod", GComments.empty, []⟩, []⟩ : EditState).replace = [] ∧
    (addReplace ⟨⟨"gno.mod", GComments.empty, []⟩, []⟩
        "p" "" "q" "banana").replace =
      [⟨⟨"p", ""⟩, ⟨"q", "banana"⟩,
        some (freshId (⟨"gno.mod", GComments.empty, []⟩ : GFileSyntax))⟩] :=
  ⟨rfl,
   addReplace_no_version_validation ⟨⟨"gno.mod", GComments.empty, []⟩, []⟩
     "p" "" "q" "banana" rfl⟩

/-! ### C8 — addLine with no hint -/

theorem head_dropWhile_false {α : Type} (p : α → Bool) (l : List α) (a : α)
    (h : (l.dropWhile p).head? = some a) : p a = false := by
  induction l with
  | nil => simp [List.dropWhile] at h
  | cons d ds ih =>
    rw [List.dropWhile_cons] at h
    split at h
    · exact ih h
    · rename_i hd
      simp only [List.head?_cons, Option.some.injEq] at h
      subst h
      simpa using hd

theorem findHintRev_cons_pos (tok0 : String) (s : GStmt) (ss : List GStmt)
    (h : stmtMatches tok0 s) :
    findHintRev tok0 (s :: ss) = some (hintOf s) := by
  cases s with
  | line l =>
    simp only [stmtMatches] at h
    simp only [findHintRev, hintOf]
    rw [if_pos h]
  | block b =>
    simp only [stmtMatches] at h
    simp only [findHintRev, hintOf]
    rw [if_pos h]
  | comments c => exact absurd h (by simp [stmtMatches])

theorem findHintRev_cons_neg (tok0 : String) (s : GStmt) (ss : List GStmt)
    (h : ¬ stmtMatches tok0 s) :
    findHintRev tok0 (s :: ss) = findHintRev tok0 ss := by
  cases s with
  | line l =>
    simp only [stmtMatches] at h
    simp only [findHintRev]
    rw [if_neg h]
  | block b =>
    simp only [stmtMatches] at h
    simp only [findHintRev]
    rw [if_neg h]
  | comments c => rfl

theorem findHintRev_append_none (tok0 : String) (a l2 : List GStmt)
    (ha : ∀ t ∈ a, ¬ stmtMatches tok0 t) :
    findHintRev tok0 (a ++ l2) = findHintRev tok0 l2 := by
  induction a with
  | nil => rfl
  | cons t a ih =>
    rw [List.cons_append, findHintRev_cons_neg _ _ _ (ha t (by simp))]
    exact ih (fun u hu => ha u (by simp [hu]))

theorem findHintRev_eq_none (tok0 : String) (l : List GStmt)
    (h : ∀ t ∈ l, ¬ stmtMatches tok0 t) : findHintRev tok0 l = none := by
  induction l with
  | nil => rfl
  | cons t l ih =>
    rw [findHintRev_cons_neg _ _ _ (h t (by simp))]
    exact ih (fun u hu => h u (by simp [hu]))

theorem specAddLineRev_eq_none (tok0 : String) (tokens : List String)
    (fid bid : Nat) (l : List GStmt)
    (h : ∀ t ∈ l, ¬ stmtMatches tok0 t) :
    specAddLineRev tok0 tokens fid bid l = none := by
  induction l with
  | nil => rfl
  | cons t l ih =>
    simp only [specAddLineRev]
    rw [if_neg (h t (by simp)), ih (fun u hu => h u (by simp [hu]))]
    rfl

theorem specAddLineRev_append_none (tok0 : String) (tokens : List String)
    (fid bid : Nat) (a : List GStmt) (s : GStmt) (b : List GStmt)
    (ha : ∀ t ∈ a, ¬ stmtMatches tok0 t) (hs : stmtMatches tok0 s) :
    specAddLineRev tok0 tokens fid bid (a ++ s :: b) =
      some (a ++ appendInto s tokens fid bid :: b) := by
  induction a with
  | nil =>
    simp only [List.nil_append, specAddLineRev]
    rw [if_pos hs]
  | cons t a ih =>
    rw [List.cons_append]
    simp only [specAddLineRev]
    rw [if_neg (ha t (by simp)), ih (fun u hu => ha u (by simp [hu]))]
    rfl

theorem applyHint_skip (tok0 : String) (tokens : List String) (fid bid : Nat)
    (t : GStmt) (ss : List GStmt) (h : Hint)
    (hid : hintId h ∉ stmtIds t) :
    applyHint tok0 tokens fid bid (t :: ss) h =
      (applyHint tok0 tokens fid bid ss h).map (t :: ·) := by
  cases t with
  | line l =>
    cases h with
    | line id =>
      have hne : ¬ l.id = id := by
        simp only [stmtIds, hintId, List.mem_singleton] at hid
        exact fun he => hid he.symm
      simp only [applyHint]
      rw [if_neg hne]
    | block id => rfl
  | block b =>
    cases h with
    | line id =>
      have hnone : b.line.findIdx? (fun l => l.id = id) = none := by
        rw [List.findIdx?_eq_none_iff]
        intro l hl
        simp only [stmtIds, hintId, List.mem_cons, List.mem_map] at hid
        simp only [decide_eq_false_iff_not]
        intro he
        exact hid (Or.inr ⟨l, hl, he⟩)
      simp only [applyHint]
      rw [hnone]
    | block id =>
      have hne : ¬ b.id = id := by
        simp only [stmtIds, hintId, List.mem_cons] at hid
        exact fun he => hid (Or.inl he.symm)
      simp only [applyHint]
      rw [if_neg hne]
  | comments c => rfl

theorem applyHint_hit (tok0 : String) (tokens : List String) (fid bid : Nat)
    (s : GStmt) (ss : List GStmt) (hm : stmtMatches tok0 s) :
    applyHint tok0 tokens fid bid (s :: ss) (hintOf s) =
      some (appendInto s tokens fid bid :: ss) := by
  cases s with
  | line l =>
    simp only [stmtMatches] at hm
    simp only [applyHint, hintOf, appendInto]
    rw [if_pos trivial, if_neg (fun hc => hc.elim hm.1 (fun hn => hn hm.2))]
  | block b =>
    simp only [stmtMatches] at hm
    simp only [applyHint, hintOf, appendInto]
    rw [if_pos trivial, if_neg (not_not_intro hm)]
  | comments c => exact absurd hm (by simp [stmtMatches])

theorem applyHint_prefix (tok0 : String) (tokens : List String)
    (fid bid : Nat) (c : List GStmt) (s : GStmt) (d : List GStmt)
    (hm : stmtMatches tok0 s)
    (hc : ∀ t ∈ c, hintId (hintOf s) ∉ stmtIds t) :
    applyHint tok0 tokens fid bid (c ++ s :: d) (hintOf s) =
      some (c ++ appendInto s tokens fid bid :: d) := by
  induction c with
  | nil => simpa using applyHint_hit tok0 tokens fid bid s d hm
  | cons t c ih =>
    rw [List.cons_append, applyHint_skip _ _ _ _ _ _ _ (hc t (by simp)),
      ih (fun u hu => hc u (by simp [hu]))]
    rfl

theorem hintId_hintOf_mem (tok0 : String) (s : GStmt)
    (hm : stmtMatches tok0 s) : hintId (hintOf s) ∈ stmtIds s := by
  cases s with
  | line l => simp [hintOf, hintId, stmtIds]
  | block b => simp [hintOf, hintId, stmtIds]
  | comments c => exact absurd hm (by simp [stmtMatches])

theorem addLine_none_eq (x : GFileSyntax) (tokens : List String) :
    addLine x none tokens =
      (match findHint x.stmt (tokens.headD "") with
       | none =>
         ({ x with stmt := x.stmt ++
            [.line (emptyLine tokens false (freshId x))] }, freshId x)
       | some h =>
         match applyHint (tokens.headD "") tokens (freshId x) (freshId x + 1)
             x.stmt h with
         | some stmts2 => ({ x with stmt := stmts2 }, freshId x)
         | none =>
           ({ x with stmt := x.stmt ++
              [.line (emptyLine tokens false (freshId x))] }, freshId x)) :=
  rfl

theorem addLine_no_hint_decomp (x : GFileSyntax) (tokens : List String)
    (a b : List GStmt) (s : GStmt)
    (hrsplit : x.stmt.reverse = a ++ s :: b)
    (ha : ∀ t ∈ a, ¬ stmtMatches (tokens.headD "") t)
    (hms : stmtMatches (tokens.headD "") s)
    (hwf : wfIds x) :
    addLine x none tokens = specAddLine x tokens := by
  have hxs : x.stmt = b.reverse ++ s :: a.reverse := by
    have h2 : x.stmt.reverse.reverse = (a ++ s :: b).reverse := by
      rw [hrsplit]
    rw [List.reverse_reverse] at h2
    rw [h2]
    simp [List.reverse_append]
  have hf : findHint x.stmt (tokens.headD "") = some (hintOf s) := by
    unfold findHint
    rw [hrsplit, findHintRev_append_none _ _ _ ha,
      findHintRev_cons_pos _ _ _ hms]
  have hs : specAddLineRev (tokens.headD "") tokens (freshId x)
      (freshId x + 1) x.stmt.reverse =
      some (a ++ appendInto s tokens (freshId x) (freshId x + 1) :: b) := by
    rw [hrsplit]
    exact specAddLineRev_append_none _ _ _ _ _ _ _ ha hms
  have hidnot : ∀ t ∈ b.reverse, hintId (hintOf s) ∉ stmtIds t := by
    intro t ht hmem
    have hwf2 : ((b.reverse ++ s :: a.reverse).map stmtIds).flatten.Nodup := by
      have := hwf
      unfold wfIds fileIds at this
      rwa [hxs] at this
    rw [List.map_append, List.flatten_append] at hwf2
    have hdisj := List.disjoint_of_nodup_append hwf2
    have h1 : hintId (hintOf s) ∈ (b.reverse.map stmtIds).flatten :=
      List.mem_flatten.mpr ⟨stmtIds t, List.mem_map.mpr ⟨t, ht, rfl⟩, hmem⟩
    have h2 : hintId (hintOf s) ∈ ((s :: a.reverse).map stmtIds).flatten :=
      List.mem_flatten.mpr ⟨stmtIds s, by simp,
        hintId_hintOf_mem (tokens.headD "") s hms⟩
    exact hdisj h1 h2
  have happ : applyHint (tokens.headD "") tokens (freshId x) (freshId x + 1)
      x.stmt (hintOf s) =
      some (b.reverse ++
        appendInto s tokens (freshId x) (freshId x + 1) :: a.reverse) := by
    rw [hxs]
    exact applyHint_prefix _ _ _ _ _ _ _ hms hidnot
  have hrev : (a ++ appendInto s tokens (freshId x) (freshId x + 1) :: b).reverse =
      b.reverse ++
        appendInto s tokens (freshId x) (freshId x + 1) :: a.reverse := by
    simp [List.reverse_append]
  rw [addLine_none_eq]
  simp only [hf, happ, specAddLine, hs, hrev]

/-- C8: with no hint, `addLine` appends the new line to the end of the
last statement (line or block) whose first token equals the new line's
first token — a bare line being converted into a block — and to the end
of the file when no statement's first token matches; `specAddLine` states
that rule verbatim, and the two agree on every tree with distinct node
ids. -/
theorem addLine_no_hint_spec (x : GFileSyntax) (tokens : List String)
    (hwf : wfIds x) :
    addLine x none tokens = specAddLine x tokens := by
  by_cases hex : ∀ t ∈ x.stmt, ¬ stmtMatches (tokens.headD "") t
  · have hf : findHint x.stmt (tokens.headD "") = none :=
      findHintRev_eq_none _ _ (fun t ht => hex t (List.mem_reverse.mp ht))
    have hs : specAddLineRev (tokens.headD "") tokens (freshId x)
        (freshId x + 1) x.stmt.reverse = none :=
      specAddLineRev_eq_none _ _ _ _ _
        (fun t ht => hex t (List.mem_reverse.mp ht))
    rw [addLine_none_eq, hf]
    simp only [specAddLine]
    rw [hs]
  · push_neg at hex
    obtain ⟨t0, ht0, hm0⟩ := hex
    cases hd : x.stmt.reverse.dropWhile
        (fun t => !decide (stmtMatches (tokens.headD "") t)) with
    | nil =>
      exfalso
      have hmem : t0 ∈ x.stmt.reverse := List.mem_reverse.mpr ht0
      rw [← List.takeWhile_append_dropWhile
        (p := fun t => !decide (stmtMatches (tokens.headD "") t))
        (l := x.stmt.reverse), hd, List.append_nil] at hmem
      have := List.mem_takeWhile_imp hmem
      simp only [Bool.not_eq_true', decide_eq_false_iff_not] at this
      exact this hm0
    | cons s b =>
      have hms : stmtMatches (tokens.headD "") s := by
        have hh := head_dropWhile_false
          (fun t => !decide (stmtMatches (tokens.headD "") t))
          x.stmt.reverse s (by rw [hd]; rfl)
        simp only [Bool.not_eq_false', decide_eq_true_eq] at hh
        exact hh
      refine addLine_no_hint_decomp x tokens
        (x.stmt.reverse.takeWhile
          (fun t => !decide (stmtMatches (tokens.headD "") t))) b s ?_ ?_ hms hwf
      · rw [← hd]
        exact (List.takeWhile_append_dropWhile _ _).symm
      · intro t ht
        have := List.mem_takeWhile_imp ht
        simp only [Bool.not_eq_true', decide_eq_false_iff_not] at this
        exact this

/-- C8 (witness): the no-hint theorem applied to a file with two
non-adjacent `replace` blocks (ids 1 and 4) separated by a `module` line
(id 3): the ids are distinct, and `addLine` with no hint agrees with the
append-to-last-matching-statement specification. -/
theorem addLine_no_hint_spec_witness :
    wfIds ⟨"gno.mod", GComments.empty,
      [.block ⟨GComments.empty, ⟨0, 0, 0⟩, ⟨GComments.empty, ⟨0, 0, 0⟩⟩,
        ["replace"],
        [⟨GComments.empty, ⟨0, 0, 0⟩, ["a", "=>", "b"], true, ⟨0, 0, 0⟩, 2⟩],
        ⟨GComments.empty, ⟨0, 0, 0⟩⟩, 1⟩,
       .line ⟨GComments.empty, ⟨0, 0, 0⟩, ["module", "m"], false, ⟨0, 0, 0⟩, 3⟩,
       .block ⟨GComments.empty, ⟨0, 0, 0⟩, ⟨GComments.empty, ⟨0, 0, 0⟩⟩,
        ["replace"],
        [⟨GComments.empty, ⟨0, 0, 0⟩, ["c", "=>", "d"], true, ⟨0, 0, 0⟩, 5⟩],
        ⟨GComments.empty, ⟨0, 0, 0⟩⟩, 4⟩]⟩ ∧
    addLine ⟨"gno.mod", GComments.empty,
      [.block ⟨GComments.empty, ⟨0, 0, 0⟩, ⟨GComments.empty, ⟨0, 0, 0⟩⟩,
        ["replace"],
        [⟨GComments.empty, ⟨0, 0, 0⟩, ["a", "=>", "b"], true, ⟨0, 0, 0⟩, 2⟩],
        ⟨GComments.empty, ⟨0, 0, 0⟩⟩, 1⟩,
       .line ⟨GComments.empty, ⟨0, 0, 0⟩, ["module", "m"], false, ⟨0, 0, 0⟩, 3⟩,
       .block ⟨GComments.empty, ⟨0, 0, 0⟩, ⟨GComments.empty, ⟨0, 0, 0⟩⟩,
        ["replace"],
        [⟨GComments.empty, ⟨0, 0, 0⟩, ["c", "=>", "d"], true, ⟨0, 0, 0⟩, 5⟩],
        ⟨GComments.empty, ⟨0, 0, 0⟩⟩, 4⟩]⟩
      none ["replace", "e", "=>", "f"] =
    specAddLine ⟨"gno.mod", GComments.empty,
      [.block ⟨GComments.empty, ⟨0, 0, 0⟩, ⟨GComments.empty, ⟨0, 0, 0⟩⟩,
        ["replace"],
        [⟨GComments.empty, ⟨0, 0, 0⟩, ["a", "=>", "b"], true, ⟨0, 0, 0⟩, 2⟩],
        ⟨GComments.empty, ⟨0, 0, 0⟩⟩, 1⟩,
       .line ⟨GComments.empty, ⟨0, 0, 0⟩, ["module", "m"], false, ⟨0, 0, 0⟩, 3⟩,
       .block ⟨GComments.empty, ⟨0, 0, 0⟩, ⟨GComments.empty, ⟨0, 0, 0⟩⟩,
        ["replace"],
        [⟨GComments.empty, ⟨0, 0, 0⟩, ["c", "=>", "d"], true, ⟨0, 0, 0⟩, 5⟩],
        ⟨GComments.empty, ⟨0, 0, 0⟩⟩, 4⟩]⟩
      ["replace", "e", "=>", "f"] :=
  ⟨by decide,
   addLine_no_hint_spec
     ⟨"gno.mod", GComments.empty,
      [.block ⟨GComments.empty, ⟨0, 0, 0⟩, ⟨GComments.empty, ⟨0, 0, 0⟩⟩,
        ["replace"],
        [⟨GComments.empty, ⟨0, 0, 0⟩, ["a", "=>", "b"], true, ⟨0, 0, 0⟩, 2⟩],
        ⟨GComments.empty, ⟨0, 0, 0⟩⟩, 1⟩,
       .line ⟨GComments.empty, ⟨0, 0, 0⟩, ["module", "m"], false, ⟨0, 0, 0⟩, 3⟩,
       .block ⟨GComments.empty, ⟨0, 0, 0⟩, ⟨GComments.empty, ⟨0, 0, 0⟩⟩,
        ["replace"],
        [⟨GComments.empty, ⟨0, 0, 0⟩, ["c", "=>", "d"], true, ⟨0, 0, 0⟩, 5⟩],
        ⟨GComments.empty, ⟨0, 0, 0⟩⟩, 4⟩]⟩
     ["replace", "e", "=>", "f"] (by decide)⟩

end Gnomod
